import Mathlib

/-!
# Verification of the doj_disclosures crawl-and-ingest engine

Shallow embedding, in Lean 4, of the parts of the `doj_disclosures` Python
package that the specification's claims are about:

* `core/downloader.py`  — per-host adaptive throttling, the 304 short-circuit;
* `core/relevance.py`   — `compute_relevance` and `cosine_similarity`;
* `core/db.py`          — `upsert_urls` status logic and `get_pending_urls`;
* `core/utils.py`       — `normalize_url` (together with the parts of Python's
  `urllib.parse.urlparse` / `urlunparse` it relies on);
* `core/matching.py`    — the literal keyword matcher and the boolean query
  engine's `NEAR/n` proximity semantics;
* `core/feedback.py`    — `apply_feedback`.

Conventions used throughout:

* Python floats are modelled as rationals (`ℚ`); the claims under study are
  about the algebraic shape of the computations, not about rounding.
* Python/SQLite strings are Lean `String`s.  Case folding is modelled at the
  ASCII level (`Char.toLower`), which agrees with SQLite's `lower()`/`LIKE`
  and with Python on the ASCII inputs the system manipulates.
* Python's `\w` (with `re.UNICODE`) is modelled as ASCII alphanumerics plus
  underscore, and `\s` as the usual ASCII whitespace; all concrete inputs in
  the repository's own tests are ASCII.
* Fallible paths are `Except`/`Option`; side effects of the downloader are
  reified as an explicit effect trace.

The file is organised as: all definitions first, then all lemmas/theorems.
-/

/-! ## Definitions: shared string helpers -/

/-- ASCII lowercase of a character, mirroring core `Char.toLower` (which in
turn is how SQLite's `lower()` and Python's `str.lower()` behave on ASCII). -/
def lowerChar (c : Char) : Char :=
  if c.toNat ≥ 65 ∧ c.toNat ≤ 90 then Char.ofNat (c.toNat + 32) else c

/-- ASCII lowercase of a string (models SQLite `lower()` and, on the ASCII
fragment, Python `str.lower()`). -/
def lowerStr (s : String) : String := String.mk (s.data.map lowerChar)

/-- Python `\w` / SQLite word characters, at the ASCII level:
letters, digits and underscore. -/
def wordChar (c : Char) : Bool := c.isAlphanum || c = '_'

/-- Whitespace, as matched by `\s` (ASCII fragment). -/
def wsChar (c : Char) : Bool := c = ' ' || c = '\t' || c = '\n' || c = '\r' ||
  c = '\x0b' || c = '\x0c'

/-- `s.endswith(suffix)`, computed on the character lists (kept
kernel-reducible so concrete instances can be settled by `decide`). -/
def strEndsWith (s suffix : String) : Bool := suffix.data.isSuffixOf s.data

/-! ## Definitions: adaptive host throttling
(`core/downloader.py`, `_HostThrottleState` / `Downloader._note_host_result`)

```python
@dataclass
class _HostThrottleState:
    next_allowed_at: float = 0.0
    penalty: float = 1.0

async def _note_host_result(self, url, *, http_status):
    ...
    if http_status in {429, 502, 503}:
        st.penalty = max(0.2, st.penalty * 0.5)
        st.next_allowed_at = max(st.next_allowed_at, monotonic() + 2.0)
    elif 200 <= http_status < 400:
        st.penalty = min(1.0, st.penalty * 1.05)
```
-/

structure HostThrottleState where
  next_allowed_at : ℚ := 0
  penalty : ℚ := 1
  deriving Repr, DecidableEq

/-- One response notification for a host; `now` is the monotonic clock at the
time of the call.  Mirrors `Downloader._note_host_result`. -/
def noteHostResult (http_status : ℕ) (now : ℚ) (st : HostThrottleState) :
    HostThrottleState :=
  if http_status = 429 ∨ http_status = 502 ∨ http_status = 503 then
    { st with
      penalty := max (1/5) (st.penalty * (1/2))
      next_allowed_at := max st.next_allowed_at (now + 2) }
  else if 200 ≤ http_status ∧ http_status < 400 then
    { st with penalty := min 1 (st.penalty * (21/20)) }
  else
    st

/-- Run a sequence of `(http_status, now)` notifications from a state. -/
def runHostResults (events : List (ℕ × ℚ)) (st : HostThrottleState) :
    HostThrottleState :=
  events.foldl (fun s e => noteHostResult e.1 e.2 s) st

/-! ## Definitions: relevance scoring
(`core/embeddings.py::cosine_similarity`, `core/relevance.py::compute_relevance`)

```python
def cosine_similarity(vec_a, norm_a, vec_b, norm_b):
    if norm_a <= 0.0 or norm_b <= 0.0:
        return 0.0
    dot = 0.0
    for x, y in zip(vec_a, vec_b):
        dot += float(x) * float(y)
    return float(dot / (norm_a * norm_b))
```
-/

def cosine_similarity (vec_a : List ℚ) (norm_a : ℚ) (vec_b : List ℚ)
    (norm_b : ℚ) : ℚ :=
  if norm_a ≤ 0 ∨ norm_b ≤ 0 then 0
  else (List.zipWith (· * ·) vec_a vec_b).sum / (norm_a * norm_b)

structure TopicVector where
  vec : List ℚ
  norm : ℚ
  deriving Repr, DecidableEq

structure RelevanceResult where
  topic_similarity : ℚ
  feedback_similarity_boost : ℚ
  url_penalty : ℚ
  entity_density : ℚ
  relevance_score : ℚ
  deriving Repr, DecidableEq

/-- `core/relevance.py::compute_relevance`, translated line by line.
`hv_centroid`/`ir_centroid` are `(vector, norm)` pairs or `None`. -/
def compute_relevance (doc_vec : List ℚ) (doc_norm : ℚ) (topic : TopicVector)
    (hv_centroid ir_centroid : Option (List ℚ × ℚ))
    (url_penalty entity_density : ℚ) : RelevanceResult :=
  let topic_sim : ℚ :=
    if topic.norm > 0 then cosine_similarity doc_vec doc_norm topic.vec topic.norm
    else 0
  let hv_sim : ℚ := match hv_centroid with
    | some c => cosine_similarity doc_vec doc_norm c.1 c.2
    | none => 0
  let ir_sim : ℚ := match ir_centroid with
    | some c => cosine_similarity doc_vec doc_norm c.1 c.2
    | none => 0
  let feedback_boost := hv_sim - ir_sim
  let rel₀ := 3/4 * topic_sim + 1/4 * feedback_boost - url_penalty
  let rel := if entity_density ≤ 0 then rel₀ * (3/4) else rel₀
  { topic_similarity := topic_sim
    feedback_similarity_boost := feedback_boost
    url_penalty := url_penalty
    entity_density := entity_density
    relevance_score := rel }

/-- The score formula exactly as the specification states it
(`score = 0.75·topicSim + 0.25·(hvSim − irSim) − urlPenalty`, then multiplied
by `0.75` when the entity density is zero). -/
def relevanceSpecFormula (topic_sim hv_sim ir_sim url_penalty
    entity_density : ℚ) : ℚ :=
  (3/4 * topic_sim + 1/4 * (hv_sim - ir_sim) - url_penalty) *
    (if entity_density = 0 then 3/4 else 1)

/-! ## Definitions: the URL frontier store (`core/db.py`)

A row of the `urls` table, restricted to the columns the claims are about.
`local_path`/`sha256` are nullable (`Option`). -/

structure UrlRow where
  url : String
  status : String
  discovered_at : String
  local_path : Option String := none
  sha256 : Option String := none
  content_type : Option String := none
  deriving Repr, DecidableEq

/-- SQLite `urls.url LIKE '%.pdf'` (LIKE is ASCII-case-insensitive): the full
URL string ends in `.pdf`. -/
def urlLikePdf (url : String) : Bool := strEndsWith (lowerStr url) ".pdf"

/-- The document-type suffix test used by `get_pending_urls` /
`get_known_document_urls`:
`lower(url) LIKE '%.pdf' OR ... '%.doc' OR ... '%.docx' OR ... '%.txt'
OR ... '%.html' OR ... '%.htm'` — on the FULL URL string. -/
def urlLikeDocSuffix (url : String) : Bool :=
  let l := lowerStr url
  strEndsWith l ".pdf" || strEndsWith l ".doc" || strEndsWith l ".docx" ||
    strEndsWith l ".txt" || strEndsWith l ".html" || strEndsWith l ".htm"

/-- Per-row semantics of `Database.upsert_urls`:

```sql
INSERT INTO urls(url,status,discovered_at) VALUES(?,?,?)
ON CONFLICT(url) DO UPDATE SET status=CASE
  WHEN urls.status='done' AND (urls.url NOT LIKE '%.pdf'
       OR (COALESCE(urls.local_path,'')<>'' AND COALESCE(urls.sha256,'')<>''))
  THEN 'done'
  ELSE excluded.status END          -- when preserve_done
-- else: SET status=excluded.status, discovered_at=excluded.discovered_at
```

`existing` is the row currently stored for the URL (`none` = fresh insert). -/
def upsertUrlRow (preserve_done : Bool) (url status discovered_at : String)
    (existing : Option UrlRow) : UrlRow :=
  match existing with
  | none => { url := url, status := status, discovered_at := discovered_at }
  | some r =>
      if preserve_done then
        if r.status = "done" ∧
            (¬ urlLikePdf r.url = true ∨
              ((r.local_path.getD "") ≠ "" ∧ (r.sha256.getD "") ≠ "")) then
          { r with status := "done" }
        else
          { r with status := status }
      else
        { r with status := status, discovered_at := discovered_at }

/-- Claim C1 exactly as stated: for a stored row currently `done`, an upsert
with `preserveDone=true` keeps the status `done` unless the URL is a
*document* URL (document-type by the extension allow-list) whose stored
`local_path` or `sha256` is empty, in which case it is re-queued to the given
status. -/
def upsertClaimC1 : Prop :=
  ∀ (r : UrlRow) (status discovered_at : String),
    r.status = "done" →
    (upsertUrlRow true r.url status discovered_at (some r)).status =
      (if urlLikeDocSuffix r.url ∧
          ((r.local_path.getD "") = "" ∨ (r.sha256.getD "") = "")
        then status else "done")

/-! ## Definitions: URL parsing (`urllib.parse.urlparse`/`urlunparse`) and
`core/utils.py::normalize_url`

```python
def normalize_url(url, base=None):
    if base:
        url = urljoin(base, url)
    parsed = urlparse(url)
    parsed = parsed._replace(fragment="")
    netloc = parsed.netloc.lower()
    scheme = parsed.scheme.lower() if parsed.scheme else "https"
    path = re.sub(r"//+", "/", parsed.path)
    return urlunparse((scheme, netloc, path, parsed.params, parsed.query, ""))
```

The claims exercise `normalize_url` without a `base`, so `urljoin` is not
modelled.  `urlparse`/`urlunparse` are translated from CPython 3.11's
`urllib/parse.py` (`urlsplit`, `_splitnetloc`, `_splitparams`,
`urlunsplit`, `uses_netloc`, `uses_params`), minus the WHATWG
control-character stripping and the netloc validation `ValueError`s (which
no claim exercises). -/

/-- CPython `urllib.parse.uses_netloc`. -/
def usesNetloc : List String :=
  ["", "ftp", "http", "gopher", "nntp", "telnet", "imap", "wais", "file",
   "mms", "https", "shttp", "snews", "prospero", "rtsp", "rtsps", "rtspu",
   "rsync", "svn", "svn+ssh", "sftp", "nfs", "git", "git+ssh", "ws", "wss"]

/-- CPython `urllib.parse.uses_params`. -/
def usesParams : List String :=
  ["", "ftp", "hdl", "prospero", "http", "imap", "https", "shttp", "rtsp",
   "rtsps", "rtspu", "sip", "sips", "mms", "sftp", "tel"]

/-- CPython `scheme_chars`: letters, digits, `+`, `-`, `.` (ASCII). -/
def schemeChar (c : Char) : Bool :=
  c.isAlpha || c.isDigit || c = '+' || c = '-' || c = '.'

/-- Characters ending the netloc in `_splitnetloc` (`'/?#'`). -/
def netlocDelim (c : Char) : Bool := c = '/' || c = '?' || c = '#'

structure UrlComponents where
  scheme : String
  netloc : String
  path : String
  params : String
  query : String
  fragment : String
  deriving Repr, DecidableEq

/-- `l.split(c, 1)`: split at the first occurrence of `c` (delimiter
dropped), or `none` when `c` does not occur. -/
def splitFirst (c : Char) (l : List Char) : Option (List Char × List Char) :=
  match l.dropWhile (· ≠ c) with
  | [] => none
  | _ :: rest => some (l.takeWhile (· ≠ c), rest)

/-- The scheme-detection step of `urlsplit`:
`i = url.find(':')`; take `url[:i]` as scheme (lowercased) when `i > 0`,
`url[0]` is an ASCII letter and all of `url[1:i]` are scheme characters. -/
def splitScheme (url : List Char) : String × List Char :=
  match splitFirst ':' url with
  | none => ("", url)
  | some ([], _) => ("", url)
  | some (c :: cs, rest) =>
      if c.isAlpha && cs.all schemeChar then
        (String.mk ((c :: cs).map lowerChar), rest)
      else ("", url)

/-- `_splitnetloc` applied when `url[:2] == '//'`: the netloc runs to the
first of `/?#`, the remainder (delimiter included) is kept. -/
def splitNetloc (l : List Char) : String × List Char :=
  if l.take 2 = ['/', '/'] then
    let r := l.drop 2
    (String.mk (r.takeWhile (fun c => !netlocDelim c)),
      r.dropWhile (fun c => !netlocDelim c))
  else ("", l)

/-- `if '#' in url: url, fragment = url.split('#', 1)`. -/
def splitFragment (l : List Char) : List Char × String :=
  match splitFirst '#' l with
  | none => (l, "")
  | some (pre, post) => (pre, String.mk post)

/-- `if '?' in url: url, query = url.split('?', 1)`. -/
def splitQuery (l : List Char) : List Char × String :=
  match splitFirst '?' l with
  | none => (l, "")
  | some (pre, post) => (pre, String.mk post)

/-- The part of `p` strictly after its last `/` (all of `p` when it has no
`/`); the range CPython's `url.find(';', url.rfind('/'))` searches in. -/
def lastSegment (p : List Char) : List Char :=
  (p.reverse.takeWhile (· ≠ '/')).reverse

/-- The complementary prefix: everything up to and including the last `/`
(empty when `p` has no `/`); `p = beforeLastSegment p ++ lastSegment p`. -/
def beforeLastSegment (p : List Char) : List Char :=
  (p.reverse.dropWhile (· ≠ '/')).reverse

/-- `_splitparams`: split the last path segment at its first `;` (the caller
guarantees `';' in url`, so the second branch's `none` case is dead code). -/
def splitParams (p : List Char) : List Char × String :=
  if p.contains '/' then
    match splitFirst ';' (lastSegment p) with
    | none => (p, "")
    | some (pre, post) => (beforeLastSegment p ++ pre, String.mk post)
  else
    match splitFirst ';' p with
    | none => (p, "")
    | some (pre, post) => (pre, String.mk post)

/-- `urllib.parse.urlparse` (via `urlsplit` + `_splitparams`; the params
split is applied only when `scheme in uses_params and ';' in url`). -/
def urlparse (s : String) : UrlComponents :=
  let sr := splitScheme s.data
  let nr := splitNetloc sr.2
  let fr := splitFragment nr.2
  let qr := splitQuery fr.1
  let pp :=
    if usesParams.contains sr.1 ∧ qr.1.contains ';' then splitParams qr.1
    else (qr.1, "")
  ⟨sr.1, nr.1, String.mk pp.1, pp.2, qr.2, fr.2⟩

/-- `urllib.parse.urlunparse` (via `urlunsplit`):

```python
if params:
    url = "%s;%s" % (url, params)
if netloc or (scheme and scheme in uses_netloc and url[:2] != '//'):
    if url and url[:1] != '/': url = '/' + url
    url = '//' + (netloc or '') + url
if scheme:
    url = scheme + ':' + url
if query:
    url = url + '?' + query
if fragment:
    url = url + '#' + fragment
```
-/
def urlunparse (c : UrlComponents) : String :=
  let url0 : List Char :=
    if c.params ≠ "" then c.path.data ++ ';' :: c.params.data else c.path.data
  let url1 : List Char :=
    if c.netloc ≠ "" ∨
        (c.scheme ≠ "" ∧ usesNetloc.contains c.scheme ∧
          url0.take 2 ≠ ['/', '/']) then
      '/' :: '/' :: c.netloc.data ++
        (if url0 ≠ [] ∧ url0.head? ≠ some '/' then '/' :: url0 else url0)
    else url0
  let url2 := if c.scheme ≠ "" then c.scheme.data ++ ':' :: url1 else url1
  let url3 := if c.query ≠ "" then url2 ++ '?' :: c.query.data else url2
  let url4 := if c.fragment ≠ "" then url3 ++ '#' :: c.fragment.data else url3
  String.mk url4

/-- `re.sub(r"//+", "/", path)`: collapse every run of slashes to one. -/
def collapseSlashes : List Char → List Char
  | [] => []
  | '/' :: '/' :: rest => collapseSlashes ('/' :: rest)
  | c :: rest => c :: collapseSlashes rest
termination_by l => l.length

/-- The component-level normalisation `normalize_url` applies after parsing. -/
def normComponents (url : String) : UrlComponents :=
  let parsed := urlparse url
  { scheme := if parsed.scheme ≠ "" then lowerStr parsed.scheme else "https"
    netloc := lowerStr parsed.netloc
    path := String.mk (collapseSlashes parsed.path.data)
    params := parsed.params
    query := parsed.query
    fragment := "" }

/-- `core/utils.py::normalize_url` (no `base`). -/
def normalize_url (url : String) : String := urlunparse (normComponents url)

/-- The invariant satisfied by every component tuple `normalize_url` builds;
such tuples round-trip through `urlunparse`/`urlparse` unchanged. -/
structure UrlInv (c : UrlComponents) : Prop where
  frag : c.fragment = ""
  scheme_ne : c.scheme ≠ ""
  scheme_head : ∀ h, c.scheme.data.head? = some h → h.isAlpha
  scheme_chars : ∀ ch ∈ c.scheme.data, schemeChar ch
  scheme_lower : lowerStr c.scheme = c.scheme
  netloc_chars : ∀ ch ∈ c.netloc.data, netlocDelim ch = false
  netloc_lower : lowerStr c.netloc = c.netloc
  path_noq : '?' ∉ c.path.data
  path_nof : '#' ∉ c.path.data
  path_collapsed : collapseSlashes c.path.data = c.path.data
  path_lastseg : usesParams.contains c.scheme = true →
    ';' ∉ lastSegment c.path.data
  params_scheme : usesParams.contains c.scheme = false → c.params = ""
  params_chars : ∀ ch ∈ c.params.data, ch ≠ '/' ∧ ch ≠ '?' ∧ ch ≠ '#'
  query_nof : '#' ∉ c.query.data
  netloc_path : c.netloc ≠ "" →
    (c.path.data.head? = some '/' ∨ (c.path = "" ∧ c.params = ""))

/-- The component adjustment `urlparse ∘ urlunparse` performs on an
invariant-satisfying tuple: when `urlunsplit` materialises `//` for a
netloc-less `uses_netloc` scheme and the path part does not start with `/`,
re-parsing sees the inserted `/` as part of the path.  The resulting tuple
renders to the same string. -/
def slashAdjust (c : UrlComponents) : UrlComponents :=
  let url0 : List Char :=
    if c.params ≠ "" then c.path.data ++ ';' :: c.params.data else c.path.data
  if c.netloc = "" ∧ usesNetloc.contains c.scheme ∧ url0 ≠ [] ∧
      url0.head? ≠ some '/' then
    { c with path := String.mk ('/' :: c.path.data) }
  else c

/-! ## Definitions: `Database.get_pending_urls` (`core/db.py`)

```sql
SELECT url, content_type FROM urls WHERE status IN ('queued','retry')
ORDER BY
  CASE WHEN lower(url) LIKE '%.pdf' OR lower(url) LIKE '%.doc'
       OR lower(url) LIKE '%.docx' OR lower(url) LIKE '%.txt'
       OR lower(url) LIKE '%.html' OR lower(url) LIKE '%.htm'
  THEN 1 ELSE 0 END ASC,
  discovered_at ASC LIMIT ?
```

Modelled on a list of rows: filter on the status set, sort by the
`(doc-flag, discovered_at)` key, truncate to `limit`.  (The SQL result order
is unspecified between rows with equal sort keys; the claims only constrain
the key order, which any correct sort realises.) -/

/-- `status IN ('queued','retry')`. -/
def urlRowPending (r : UrlRow) : Bool :=
  r.status == "queued" || r.status == "retry"

/-- The `CASE WHEN lower(url) LIKE '%.pdf' OR ... THEN 1 ELSE 0 END`
document flag: note it tests the FULL URL string, not the path component. -/
def docFlag (r : UrlRow) : ℕ := if urlLikeDocSuffix r.url then 1 else 0

/-- Byte-wise (codepoint-wise on ASCII) `≤` on character lists — SQLite's
BINARY collation used to compare the `discovered_at` TEXT column. -/
def strLeB : List Char → List Char → Bool
  | [], _ => true
  | _ :: _, [] => false
  | x :: xs, y :: ys =>
      if x = y then strLeB xs ys else decide (x.toNat < y.toNat)

/-- The `ORDER BY` key comparison of `get_pending_urls`: document flag
ascending, then `discovered_at` ascending. -/
def pendingLeB (a b : UrlRow) : Bool :=
  if docFlag a = docFlag b then strLeB a.discovered_at.data b.discovered_at.data
  else decide (docFlag a < docFlag b)

/-- `pendingLeB` as a relation, for `List.insertionSort`. -/
def pendingLe (a b : UrlRow) : Prop := pendingLeB a b = true

instance : DecidableRel pendingLe :=
  fun a b => instDecidableEqBool (pendingLeB a b) true

/-- `Database.get_pending_urls`: the rows in state `queued`/`retry`, in the
`ORDER BY` key order, truncated to `limit`. -/
def getPendingUrls (frontier : List UrlRow) (limit : ℕ) : List UrlRow :=
  (List.insertionSort pendingLe (frontier.filter urlRowPending)).take limit

/-- Claim C2's classification: document-type by the extension of the URL's
*path* (claim text: "path not ending in .pdf/.doc/.docx/.txt/.html/.htm"
is page-type). -/
def pathDocType (url : String) : Bool :=
  let p := lowerStr (urlparse url).path
  strEndsWith p ".pdf" || strEndsWith p ".doc" || strEndsWith p ".docx" ||
    strEndsWith p ".txt" || strEndsWith p ".html" || strEndsWith p ".htm"

/-- Claim C2 exactly as stated: at most `limit` rows, all `queued`/`retry`,
every page-type URL (by *path* extension) ordered before every
document-type URL, and each group ordered by discovery time ascending. -/
def pendingClaimC2 : Prop :=
  ∀ (frontier : List UrlRow) (limit : ℕ),
    (getPendingUrls frontier limit).length ≤ limit ∧
    (∀ r ∈ getPendingUrls frontier limit,
        r.status = "queued" ∨ r.status = "retry") ∧
    (getPendingUrls frontier limit).Pairwise (fun a b =>
      (pathDocType a.url = true → pathDocType b.url = true) ∧
      (pathDocType a.url = pathDocType b.url →
        strLeB a.discovered_at.data b.discovered_at.data = true))

/-! ## Definitions: `Downloader._download_once` (`core/downloader.py`)

The download of one URL, modelled as a pure function from the HTTP
response and the ambient facts the code reads (part-file state, settings,
cookie jar, stop flag) to an `Except` result plus the ordered list of
externally visible effects it performs.  File contents are byte lists
(`List ℕ`); the SHA-256 digest and the `fetched_at` timestamp are
environment-supplied (`shaFn`, `fetched_at`), as the code gets them from
`hashlib`/the clock.  Directory creation (`mkdir`) and the request-header
construction (Range / conditional-GET headers) are not tracked: they do
not produce or destroy document files.  The `stop` flag is modelled as
constant over the call: the chunk loop checks it first, so a set flag
means no chunk is written before `CancelledError`. -/

/-- ASCII bytes of a literal (the source's `b"..."` literals). -/
def asciiBytes (s : String) : List ℕ := s.data.map Char.toNat

/-- `bytes.lower()`: ASCII-only lowercasing, byte by byte. -/
def lowerByte (b : ℕ) : ℕ := if 65 ≤ b ∧ b ≤ 90 then b + 32 else b

/-- `str.strip()` (ASCII whitespace; the strings involved are ASCII). -/
def pyStrip (s : String) : String :=
  String.mk (((s.data.dropWhile wsChar).reverse.dropWhile wsChar).reverse)

/-- `str.rstrip(c)` for a single strip character. -/
def pyRstripChar (c : Char) (s : String) : String :=
  String.mk ((s.data.reverse.dropWhile (· = c)).reverse)

/-- `needle` occurs as a contiguous infix of `hay`. -/
def isInfixB {α : Type} [DecidableEq α] (needle : List α) : List α → Bool
  | [] => needle.isEmpty
  | x :: xs => needle.isPrefixOf (x :: xs) || isInfixB needle xs

/-- `sub in s` on strings. -/
def strContains (s sub : String) : Bool := isInfixB sub.data s.data

/-- Replace every maximal nonempty run of characters satisfying `p` by the
single character `rep` — `re.sub(r"[...]+", rep, ·)` for a character
class. -/
def subRuns (p : Char → Bool) (rep : Char) : List Char → List Char
  | [] => []
  | c :: cs =>
      if p c then rep :: subRuns p rep (cs.dropWhile p)
      else c :: subRuns p rep cs
termination_by l => l.length
decreasing_by
  · simpa using Nat.lt_succ_of_le (List.dropWhile_sublist p).length_le
  · simp

/-- The character class `[\\/:*?"<>|]` of `safe_filename`. -/
def badFnChar (c : Char) : Bool :=
  c = '\\' || c = '/' || c = ':' || c = '*' || c = '?' || c = '"' ||
    c = '<' || c = '>' || c = '|'

/-- `core/utils.py::safe_filename` (`max_len` defaults to 160 in the
source; callers that override it pass it explicitly here): strip, collapse
the forbidden-character runs to `_`, collapse whitespace runs to a single
space, default to `"file"`, truncate to `max_len` and right-strip. -/
def safe_filename (max_len : ℕ) (name : String) : String :=
  let n1 := (pyStrip name).data
  let n2 := subRuns badFnChar '_' n1
  let n3 := subRuns wsChar ' ' n2
  let n4 := if n3 = [] then "file".data else n3
  if max_len < n4.length then
    String.mk ((n4.take max_len).reverse.dropWhile wsChar).reverse
  else String.mk n4

/-- `pathlib.Path(s).name`: the last nonempty `/`-separated component
("" when there is none, e.g. for `"/"` or `""`). -/
def pathName (s : String) : String :=
  match (s.data.reverse.dropWhile (· = '/')).takeWhile (· ≠ '/') with
  | [] => ""
  | l => String.mk l.reverse

/-- `pathlib.PurePath.suffix` of a file NAME (no directory part): the part
from the last dot, unless that dot is the first or last character. -/
def pathSuffix (name : String) : String :=
  let n := name.data
  if n.contains '.' then
    let after := ((n.reverse.takeWhile (fun c => c ≠ '.')).reverse)
    let i := n.length - after.length - 1
    if 0 < i ∧ after ≠ [] then String.mk ('.' :: after) else ""
  else ""

/-- `pathlib.PurePath.stem` of a file name: the name minus `pathSuffix`. -/
def pathStem (name : String) : String :=
  let n := name.data
  if n.contains '.' then
    let after := ((n.reverse.takeWhile (fun c => c ≠ '.')).reverse)
    let i := n.length - after.length - 1
    if 0 < i ∧ after ≠ [] then String.mk (n.take i) else name
  else name

/-- Python truthy-`or` on an optional string: `a or b`. -/
def pyOrS (a : Option String) (b : String) : String :=
  match a with
  | some s => if s = "" then b else s
  | none => b

/-- `str.isdigit` restricted to ASCII (the Content-Length header). -/
def isDigitB (c : Char) : Bool := 48 ≤ c.toNat && c.toNat ≤ 57

/-- `int(·)` on a digit string. -/
def natOfDigits (l : List Char) : ℕ :=
  l.foldl (fun acc c => 10 * acc + (c.toNat - 48)) 0

/-- The settings fields `_download_once` reads. -/
structure DlSettings where
  age_verify_opt_in : Bool
  storage_layout : String
  deriving Repr, DecidableEq

/-- The ambient filesystem / session facts `_download_once` reads. -/
structure DlFs where
  part_size : ℕ
  part_bytes : List ℕ
  hashed_exists : Bool
  flat_exists : Bool
  cookie_present : Bool
  stop_set : Bool
  deriving Repr, DecidableEq

/-- One HTTP response, as the code consumes it. -/
structure HttpResponse where
  status : ℕ
  final_url : String
  content_type : String
  content_length : Option String
  etag : Option String
  last_modified : Option String
  body : List (List ℕ)
  deriving Repr, DecidableEq

/-- The `DownloadResult` dataclass (paths as strings relative to the
output directory). -/
structure DownloadResult where
  url : String
  final_url : String
  local_path : String
  content_type : String
  file_size : Option ℕ
  sha256 : String
  fetched_at : String
  etag : Option String
  last_modified : Option String
  deriving Repr, DecidableEq

/-- The externally visible effects of `_download_once`, in program order:
the host-throttle notification, part-file byte appends, part-file
deletions, renames of the part file to a final/diagnostic location, and
the age-gate cookie store.  `_download_once` performs NO database writes
(its callers do), hence no database effect exists. -/
inductive DlEffect where
  | notedHost (url : String) (status : ℕ)
  | wrotePart (path : String)
  | deletedPart (path : String)
  | renamed (src dst : String)
  | setCookie (name : String)
  deriving Repr, DecidableEq

/-- The distinct error outcomes (`raise` sites) of `_download_once`. -/
inductive DlError where
  | notModified (url : String)
  | httpError (status : ℕ)
  | ageGate
  | notPdf
  | cancelled
  deriving Repr, DecidableEq

/-- `Downloader._download_once`, in source order.  `resps` gives the
response as a function of the cookie-jar state, since the age-gate branch
re-issues the request after setting the cookie (the sole recursion, which
flips `cookie_present` to `true` and so happens at most once). -/
def downloadOnce (settings : DlSettings) (fs : DlFs)
    (shaFn : List ℕ → String) (fetched_at : String)
    (url : String) (title : Option String)
    (resps : Bool → HttpResponse) : Except DlError DownloadResult × List DlEffect :=
  let base_name := safe_filename 160 (pyOrS title
    (if pathName url = "" then "document" else pathName url))
  let part_path := ".parts/" ++ base_name ++ ".part"
  let final_path := base_name
  let parsed := urlparse url
  let expect_pdf_by_url := strEndsWith (lowerStr parsed.path) ".pdf"
  let host := lowerStr parsed.netloc
  let is_justice := host == "www.justice.gov" || strEndsWith host ".justice.gov"
  let retry_after_age_verify := is_justice && settings.age_verify_opt_in
  let resp := resps fs.cookie_present
  let e0 := [DlEffect.notedHost url resp.status]
  if resp.status = 304 then (.error (.notModified url), e0)
  else if 400 ≤ resp.status then (.error (.httpError resp.status), e0)
  else
    let wipePart := decide (fs.part_size ≠ 0) && decide (resp.status = 200)
    let existing_size := if wipePart then 0 else fs.part_size
    let part_bytes := if wipePart then [] else fs.part_bytes
    let e1 := if wipePart then e0 ++ [.deletedPart part_path] else e0
    let content_type := resp.content_type
    let expect_pdf := expect_pdf_by_url ||
      strContains (lowerStr content_type) "pdf"
    let file_size := match resp.content_length with
      | some cl =>
          if cl.data ≠ [] ∧ cl.data.all isDigitB then
            some (natOfDigits cl.data + existing_size)
          else none
      | none => none
    let etag := match resp.etag with
      | some e => if e = "" then none else some e
      | none => none
    let last_modified := match resp.last_modified with
      | some l => if l = "" then none else some l
      | none => none
    if fs.stop_set then (.error .cancelled, e1)
    else
      let written := resp.body.flatten
      let e2 := e1 ++ (if written = [] then [] else [.wrotePart part_path])
      let sha256 := shaFn (part_bytes ++ written)
      let first_bytes := written.take 2048
      let head_stripped := first_bytes.dropWhile (fun b => b ∈ [13, 10, 9, 32])
      let looks_like_pdf := (asciiBytes "%PDF-").isPrefixOf head_stripped
      let head_low := first_bytes.map lowerByte
      let looks_like_html := isInfixB (asciiBytes "<html") head_low ||
        isInfixB (asciiBytes "<!doctype html") head_low
      let is_htmlish := strContains (lowerStr content_type) "text/html" ||
        looks_like_html
      let looks_like_age_gate :=
        isInfixB (asciiBytes "/age-verify") head_low ||
        isInfixB (asciiBytes "are you 18") head_low ||
        isInfixB (asciiBytes "age verification") head_low ||
        isInfixB (asciiBytes "age-verify-block") head_low ||
        strContains resp.final_url "/age-verify" ||
        strEndsWith (pyRstripChar '/' resp.final_url) "/age-verify"
      let bad_path := final_path ++ ".not_pdf.html"
      if hgate : (expect_pdf && is_htmlish && looks_like_age_gate &&
          retry_after_age_verify && !fs.cookie_present) = true then
        let inner := downloadOnce settings
          { fs with cookie_present := true, part_size := 0, part_bytes := [] }
          shaFn fetched_at url title resps
        (inner.1,
          e2 ++ [.setCookie "justiceGovAgeVerified", .deletedPart part_path]
            ++ inner.2)
      else if (expect_pdf && is_htmlish && looks_like_age_gate &&
          !retry_after_age_verify) = true then
        (.error .ageGate, e2 ++ [.renamed part_path bad_path])
      else if (expect_pdf && (is_htmlish || !looks_like_pdf)) = true then
        (.error .notPdf, e2 ++ [.renamed part_path bad_path])
      else
        let final_path := if pathSuffix final_path = "" ∧
            strContains (lowerStr content_type) "pdf" then final_path ++ ".pdf"
          else final_path
        let storage_layout := pyStrip (lowerStr
          (if settings.storage_layout = "" then "flat" else
            settings.storage_layout))
        if storage_layout = "hashed" then
          let hashed_path := String.mk (sha256.data.take 2) ++ "/" ++
            String.mk ((sha256.data.drop 2).take 2) ++ "/" ++ sha256 ++
            pathSuffix final_path
          if fs.hashed_exists then
            (.ok ⟨url, resp.final_url, hashed_path, content_type, file_size,
              sha256, fetched_at, etag, last_modified⟩,
              e2 ++ [.deletedPart part_path])
          else
            (.ok ⟨url, resp.final_url, hashed_path, content_type, file_size,
              sha256, fetched_at, etag, last_modified⟩,
              e2 ++ [.renamed part_path hashed_path])
        else
          let final_path := if fs.flat_exists then
              pathStem final_path ++ "-" ++ String.mk (sha256.data.take 8) ++
                pathSuffix final_path
            else final_path
          (.ok ⟨url, resp.final_url, final_path, content_type, file_size,
            sha256, fetched_at, etag, last_modified⟩,
            e2 ++ [.renamed part_path final_path])
termination_by (if fs.cookie_present then 0 else 1)
decreasing_by
  simp only [Bool.and_eq_true, Bool.not_eq_true'] at hgate
  simp [hgate.2]

/-! ## Definitions: `core/feedback.py::apply_feedback` and its helpers

The persistent state `apply_feedback` touches is modelled as one record:
the `doc_reviews` table, the two kv-store entries (URL penalties and the
phrase blacklist, with their JSON (de)serialisation idealised as the
identity on an association list / string list — `json.dumps`/`loads`
round-trips both faithfully; `dump_url_penalties` sorts keys, which only
permutes the stored dict and is immaterial to the claims), the
`documents` rows the function reads and repoints, the read-only `matches`
and FTS tables, the feedback centroids, and a log of file moves performed
on disk.  Clock, filesystem-existence test, the embedding provider and
the float32/norm primitives of `embeddings.py` are environment-supplied
functions.  Float arithmetic inside the online centroid mean is idealised
as exact rational arithmetic; no claim constrains those values. -/

/-- `s.startswith(pre)`. -/
def strStartsWith (s pre : String) : Bool := pre.data.isPrefixOf s.data

/-- Python dict assignment `d[k] = v` on an association list: replace in
place if the key is present, else append. -/
def assocSet {α β : Type} [DecidableEq α] (l : List (α × β)) (k : α)
    (v : β) : List (α × β) :=
  if (l.lookup k).isSome then
    l.map (fun p => if p.1 = k then (k, v) else p)
  else l ++ [(k, v)]

/-- The `Centroid` dataclass (vector entries as rationals). -/
structure Centroid where
  vec : List ℚ
  norm : ℚ
  count : ℤ
  deriving Repr, DecidableEq

/-- `feedback.py::_update_centroid`.  `toF32` is the float32 round-trip of
`vector_to_blob`/`blob_to_vector`; `normFn` the norm `vector_to_blob`
computes on the rounded vector. -/
def updateCentroid (toF32 : ℚ → ℚ) (normFn : List ℚ → ℚ)
    (old : Option Centroid) (new_vec : List ℚ) : Centroid :=
  if new_vec = [] then old.getD ⟨[], 0, 0⟩
  else
    match old with
    | none => ⟨new_vec.map toF32, normFn (new_vec.map toF32), 1⟩
    | some o =>
        if o.count ≤ 0 ∨ o.vec = [] then
          ⟨new_vec.map toF32, normFn (new_vec.map toF32), 1⟩
        else
          let dim := min o.vec.length new_vec.length
          let avg := (List.zip (o.vec.take dim) (new_vec.take dim)).map
            (fun p => (p.1 * (o.count : ℚ) + p.2) / ((o.count : ℚ) + 1))
          ⟨avg.map toF32, normFn (avg.map toF32), o.count + 1⟩

/-- The columns of a `documents` row that `apply_feedback` reads
(`get_document` returns `{}` for a missing doc and `doc.get(...) or ""`
blanks missing fields, so absent rows behave as all-empty strings). -/
structure FbDoc where
  url : String
  title : String
  sha256 : String
  local_path : String
  deriving Repr, DecidableEq

/-- The persistent state read/written by `apply_feedback`. -/
structure FbState where
  reviews : List (ℕ × String × String)
  url_penalties : List (String × ℚ)
  phrase_blacklist : List String
  docs : List (ℕ × FbDoc)
  match_rows : List (ℕ × List (Option String))
  fts : List (ℕ × String)
  centroids : List ((String × String) × Centroid)
  moves : List (String × String)
  deriving Repr, DecidableEq

/-- Environment-supplied primitives: filesystem existence, whether the
`move_to`/`update_paths` step succeeds (its `try/except Exception: pass`),
the embedding provider, the float32 round-trip and norm, and the clock. -/
structure FbEnv where
  exists_fn : String → Bool
  move_ok : Bool
  embed : String → List ℚ
  toF32 : ℚ → ℚ
  normFn : List ℚ → ℚ
  now : String

/-- `relevance.py::hostname`: `urlparse(url).netloc.lower().strip()`. -/
def hostname (url : String) : String := pyStrip (lowerStr (urlparse url).netloc)

/-- `relevance.py::load_url_penalties` on the stored dict: entries with a
blank key are skipped (`if not k: continue`). -/
def load_url_penalties (l : List (String × ℚ)) : List (String × ℚ) :=
  l.filter (fun p => p.1 ≠ "")

/-- `Database.set_review_status`: normalise the status, delete the review
row on `"new"`, upsert otherwise. -/
def set_review_status (reviews : List (ℕ × String × String)) (doc_id : ℕ)
    (status updated_at : String) : List (ℕ × String × String) :=
  let st0 := lowerStr (pyStrip (if status = "" then "new" else status))
  let st := if st0 = "new" ∨ st0 = "reviewed" ∨ st0 = "ignored" ∨
      st0 = "irrelevant" ∨ st0 = "high_value" then st0 else "new"
  if st = "new" then reviews.filter (fun r => r.1 ≠ doc_id)
  else assocSet reviews doc_id (st, updated_at)

/-- `Database.update_paths_for_sha256` restricted to the `documents` rows
(the `urls` table gets the identical update). -/
def update_paths_for_sha256 (docs : List (ℕ × FbDoc))
    (sha256 local_path : String) : List (ℕ × FbDoc) :=
  let sha := lowerStr (pyStrip sha256)
  if sha = "" then docs
  else docs.map (fun p =>
    if p.2.sha256 = sha then (p.1, { p.2 with local_path := local_path })
    else p)

/-- `storage_gating.py::compute_flagged_path` (paths as strings;
`display_name` is never `None` at the feedback call site). -/
def compute_flagged_path (flagged_dir sha256 suffix storage_layout
    display_name : String) : String :=
  let suf := if strStartsWith suffix "." || suffix == "" then suffix
    else "." ++ suffix
  let layout := lowerStr (pyStrip
    (if storage_layout = "" then "flat" else storage_layout))
  let raw0 := pyStrip display_name
  let raw := if raw0 ≠ "" then
      (if suf ≠ "" ∧ strEndsWith (lowerStr raw0) (lowerStr suf) then
        String.mk (raw0.data.take (raw0.data.length - suf.data.length))
      else raw0)
    else "file"
  let short := String.mk ((pyStrip sha256).data.take 10)
  let base := if short ≠ "" then safe_filename 110 (raw ++ "__" ++ short)
    else safe_filename 110 raw
  let filename := base ++ suf
  if layout = "hashed" ∧ sha256 ≠ "" then
    flagged_dir ++ "/" ++ String.mk (sha256.data.take 2) ++ "/" ++
      String.mk ((sha256.data.drop 2).take 2) ++ "/" ++ filename
  else flagged_dir ++ "/" ++ filename

/-- `storage_gating.py::move_to` as a move log: a no-op when source and
destination coincide. -/
def move_to (moves : List (String × String)) (dst src : String) :
    List (String × String) :=
  if src = dst then moves else moves ++ [(src, dst)]

/-- The "Move file into the appropriate Flagged subfolder" section of
`apply_feedback` (its `try/except` does nothing on a missing document:
`get_document` returns `{}`, blanking `local_path`). -/
def feedbackMoveStep (env : FbEnv) (doc_id : ℕ)
    (lb output_dir storage_layout : String) (st1 : FbState) : FbState :=
  let doc := (st1.docs.lookup doc_id).getD ⟨"", "", "", ""⟩
  let local_path := doc.local_path
  let sha := doc.sha256
  if local_path ≠ "" ∧ sha ≠ "" ∧ env.exists_fn local_path then
    let bucket_dir := output_dir ++ "/flagged/" ++
      (if lb = "high_value" then "high_value" else "irrelevant")
    let title := pyStrip doc.title
    let src_name := pathName local_path
    let dst := compute_flagged_path bucket_dir sha (pathSuffix src_name)
      storage_layout (if title ≠ "" then title else pathStem src_name)
    if env.move_ok then
      { st1 with moves := move_to st1.moves dst local_path,
                 docs := update_paths_for_sha256 st1.docs sha dst }
    else st1
  else st1

/-- The "URL penalties (per hostname)" section of `apply_feedback`. -/
def feedbackPenaltyStep (doc_id : ℕ) (lb : String) (st2 : FbState) :
    FbState :=
  let doc2 := (st2.docs.lookup doc_id).getD ⟨"", "", "", ""⟩
  let host : String := hostname doc2.url
  let penalties := load_url_penalties st2.url_penalties
  let cur : ℚ := (penalties.lookup host).getD 0
  if host ≠ "" then
    let cur2 := if lb = "irrelevant" then min (3/5 : ℚ) (cur + 1/20)
      else max (0 : ℚ) (cur - 3/100)
    { st2 with url_penalties := assocSet penalties host cur2 }
  else st2

/-- The "Phrase blacklist: only blacklist single-hit patterns" section of
`apply_feedback`. -/
def feedbackBlacklistStep (doc_id : ℕ) (lb : String) (st3 : FbState) :
    FbState :=
  let ms : List (Option String) := (st3.match_rows.lookup doc_id).getD []
  if lb = "irrelevant" ∧ ms.length = 1 then
    let pat := pyStrip (pyOrS (ms.headD none) "")
    if pat ≠ "" then
      let bl := st3.phrase_blacklist.filter (fun x => pyStrip x ≠ "")
      if pat ∉ bl then
        { st3 with phrase_blacklist :=
            (bl ++ [pat]).drop ((bl ++ [pat]).length - 500) }
      else st3
    else st3
  else st3

/-- The "Online centroid model update" section of `apply_feedback`
(`provider_some` is `provider is not None`). -/
def feedbackCentroidStep (env : FbEnv) (doc_id : ℕ)
    (lb model_name : String) (provider_some : Bool) (st4 : FbState) :
    FbState :=
  if provider_some = false then st4
  else
    let text := (st4.fts.lookup doc_id).getD ""
    if pyStrip text = "" then st4
    else
      let vec := env.embed (String.mk (text.data.take 12000))
      let old := st4.centroids.lookup (lb, model_name)
      let updated := updateCentroid env.toF32 env.normFn old vec
      let stored : Centroid := ⟨updated.vec.map env.toF32,
        env.normFn (updated.vec.map env.toF32), updated.count⟩
      { st4 with centroids := assocSet st4.centroids (lb, model_name) stored }

/-- `feedback.py::apply_feedback`, in source order: validate the label
(early return), upsert the review status, then the move, URL-penalty,
phrase-blacklist and centroid sections above. -/
def apply_feedback (env : FbEnv) (doc_id : ℕ) (label : String)
    (provider_some : Bool) (model_name output_dir storage_layout : String)
    (st : FbState) : FbState :=
  let lb := lowerStr (pyStrip label)
  if ¬ (lb = "irrelevant" ∨ lb = "high_value") then st
  else
    feedbackCentroidStep env doc_id lb model_name provider_some
      (feedbackBlacklistStep doc_id lb
        (feedbackPenaltyStep doc_id lb
          (feedbackMoveStep env doc_id lb output_dir storage_layout
            { st with reviews :=
                set_review_status st.reviews doc_id lb env.now })))

/-- Claim C8 exactly as stated: labeling a document `irrelevant` when it
has exactly one recorded match puts THE MATCH'S PATTERN into the phrase
blacklist. -/
def blacklistClaimC8 : Prop :=
  ∀ (env : FbEnv) (doc_id : ℕ) (provider_some : Bool)
    (model_name output_dir storage_layout : String) (st : FbState)
    (pat : Option String),
    st.match_rows.lookup doc_id = some [pat] →
    pyOrS pat "" ∈ (apply_feedback env doc_id "irrelevant" provider_some
      model_name output_dir storage_layout st).phrase_blacklist

/-! ## Definitions: `core/matching.py` — the keyword matcher and the
boolean query engine

Strings are ASCII-level: Python's `\w` (`re.UNICODE`) is modelled as
ASCII alphanumerics plus `_`, `\s` as ASCII whitespace, `IGNORECASE` as
ASCII case folding — the keywords and queries this tool ships are ASCII.
The boolean engine is modelled from the tokenizer's output onward: a
query is a list of token strings exactly as `tokenize` produces them
(quoted phrases keep their quotes), and `_parse_to_rpn` / `_eval_rpn` /
`_near_present` / `_term_present` are translated statement by
statement. -/

/-- Python `str.upper()` on ASCII. -/
def upperChar (c : Char) : Char :=
  if c.toNat ≥ 97 ∧ c.toNat ≤ 122 then Char.ofNat (c.toNat - 32) else c

/-- `tok.upper()`. -/
def pyUpper (s : String) : String := String.mk (s.data.map upperChar)

/-- Decimal rendering of a natural number (Python's `f"{n}"`). -/
def natReprCore (n : ℕ) : List Char :=
  if h : n < 10 then [Char.ofNat (48 + n)]
  else natReprCore (n / 10) ++ [Char.ofNat (48 + n % 10)]
termination_by n
decreasing_by
  exact Nat.div_lt_self (by omega) (by omega)

/-- `f"{n}"` as a string. -/
def natRepr (n : ℕ) : String := String.mk (natReprCore n)

/-- `re.findall(r"\w+", s)`: the maximal runs of word characters,
collected by a single left-to-right scan (`acc` holds the current run,
reversed). -/
def findWordsAux : List Char → List Char → List (List Char)
  | [], acc => if acc = [] then [] else [acc.reverse]
  | c :: cs, acc =>
      if wordChar c then findWordsAux cs (c :: acc)
      else if acc = [] then findWordsAux cs []
      else acc.reverse :: findWordsAux cs []

/-- `re.findall(r"\w+", s)`. -/
def findWords (l : List Char) : List (List Char) := findWordsAux l []

/-- `BooleanQueryEngine._term_tokens`: strip, remove one surrounding
quote pair, split into word tokens. -/
def termTokens (term : String) : List (List Char) :=
  let t := pyStrip term
  let t2 := if strStartsWith t "\"" ∧ strEndsWith t "\"" then
      String.mk ((t.data.drop 1).dropLast)
    else t
  findWords t2.data

/-- Case-insensitive literal prefix: the pattern token `t` (after
`re.escape`) matches the start of `s` under `re.IGNORECASE`. -/
def ciPrefix (t s : List Char) : Bool :=
  (s.take t.length).map lowerChar == t.map lowerChar

/-- Consume the compiled phrase body `tok₁\s+tok₂\s+…\s+tokₖ` at the
start of `s`, returning the remainder.  The split points are forced:
each `\s+` is maximal because the following token starts with a word
character, which is never whitespace — so Python's backtracking regex
and this deterministic scan agree. -/
def consumePhrase : List (List Char) → List Char → Option (List Char)
  | [], s => some s
  | [t], s => if ciPrefix t s then some (s.drop t.length) else none
  | t :: ts, s =>
      if ciPrefix t s then
        let s1 := s.drop t.length
        if s1.takeWhile wsChar = [] then none
        else consumePhrase ts (s1.dropWhile wsChar)
      else none

/-- The full compiled pattern `(?<!\w)…(?!\w)` matches AT this position:
the body consumes a prefix and the next character is not a word
character. -/
def matchAtBool (toks : List (List Char)) (s : List Char) : Bool :=
  match consumePhrase toks s with
  | some rest =>
      match rest.head? with
      | none => true
      | some c => ! wordChar c
  | none => false

/-- The `(?<!\w)` lookbehind holds at position `i` of `s`. -/
def boundaryAt (s : List Char) (i : ℕ) : Bool :=
  i == 0 || ! wordChar (s.getD (i - 1) ' ')

/-- `re.search` of the compiled phrase pattern over the whole text: some
position with a word boundary where the pattern matches. -/
def phraseFound (toks : List (List Char)) (s : List Char) : Bool :=
  (List.range (s.length + 1)).any (fun i =>
    boundaryAt s i && matchAtBool toks (s.drop i))

/-- `BooleanQueryEngine._term_present` (the built pattern never fails to
compile: its tokens are `re.escape`d word-character runs). -/
def term_present (term text : String) : Bool :=
  let toks := termTokens term
  if toks = [] then false else phraseFound toks text.data

/-- `BooleanQueryEngine._phrase_positions`, both source branches; the
generic `range(0, max(0, len(words) - plen + 1))` is `ℕ`-subtraction
`words.length + 1 - plen`. -/
def phrasePositions (words phrase : List (List Char)) : List ℕ :=
  if phrase = [] then []
  else if phrase.length = 1 then
    (List.range words.length).filter (fun i => words.getD i [] == phrase.headD [])
  else
    (List.range (words.length + 1 - phrase.length)).filter
      (fun i => (words.drop i).take phrase.length == phrase)

/-- `BooleanQueryEngine._near_present`: compare token-start positions of
the two phrases over the `\w+` words of `text.lower()`. -/
def near_present (left right : String) (n : ℕ) (text : String) : Bool :=
  let words := findWords (text.data.map lowerChar)
  let left_phrase := (termTokens left).map (List.map lowerChar)
  let right_phrase := (termTokens right).map (List.map lowerChar)
  if left_phrase = [] ∨ right_phrase = [] then false
  else
    let left_pos := phrasePositions words left_phrase
    let right_pos := phrasePositions words right_phrase
    if left_pos = [] ∨ right_pos = [] then false
    else left_pos.any (fun i => right_pos.any (fun j =>
      max i j - min i j ≤ n))

/-- `op_key`. -/
def opKey (tok : String) : String :=
  if strStartsWith (pyUpper tok) "NEAR/" then "NEAR" else pyUpper tok

/-- The `prec` table, with `.get(·, 0)`. -/
def precOf (k : String) : ℕ :=
  if k = "NOT" then 3 else if k = "NEAR" then 2 else if k = "AND" then 2
  else if k = "OR" then 1 else 0

/-- Is this token an operator (`AND`/`OR`/`NOT`/`NEAR/n`)? -/
def isOpTok (tok : String) : Bool :=
  let u := pyUpper tok
  u == "AND" || u == "OR" || u == "NOT" || strStartsWith u "NEAR/"

/-- `BooleanQueryEngine._parse_to_rpn` (shunting-yard; the operator stack
grows at the head). -/
def rpnAux : List String → List String → List String → List String
  | [], out, stack => out ++ stack
  | tok :: rest, out, stack =>
      if tok = "(" then rpnAux rest out (tok :: stack)
      else if tok = ")" then
        let out2 := out ++ stack.takeWhile (· ≠ "(")
        let stack2 := stack.dropWhile (· ≠ "(")
        rpnAux rest out2 (if stack2.head? = some "(" then stack2.tail else stack2)
      else if isOpTok tok then
        let k := opKey tok
        let cond := fun s => s ≠ "(" ∧ precOf (opKey s) ≥ precOf k
        rpnAux rest (out ++ stack.takeWhile cond) (tok :: stack.dropWhile cond)
      else rpnAux rest (out ++ [tok]) stack

/-- `_parse_to_rpn` entry point. -/
def parseToRpn (tokens : List String) : List String := rpnAux tokens [] []

/-- `BooleanQueryEngine._eval_rpn`.  `none` models an uncaught exception
(popping an empty stack, or `int()` on a malformed `NEAR/` suffix — the
tokenizer never emits one), which `evaluate` turns into "no match". -/
def evalRpnAux (text : String) : List String → List (Bool × String) →
    Option (Bool × String)
  | [], stack =>
      match stack with
      | [] => some (false, "")
      | top :: _ => some top
  | tok :: rest, stack =>
      let u := pyUpper tok
      if u = "NOT" then
        match stack with
        | (a, d) :: s => evalRpnAux text rest ((!a, "NOT(" ++ d ++ ")") :: s)
        | [] => none
      else if u = "AND" then
        match stack with
        | (b, bd) :: (a, ad) :: s =>
            evalRpnAux text rest
              ((a && b, "(" ++ ad ++ " AND " ++ bd ++ ")") :: s)
        | _ => none
      else if u = "OR" then
        match stack with
        | (b, bd) :: (a, ad) :: s =>
            evalRpnAux text rest
              ((a || b, "(" ++ ad ++ " OR " ++ bd ++ ")") :: s)
        | _ => none
      else if strStartsWith u "NEAR/" then
        let ns := u.data.drop 5
        if ns ≠ [] ∧ ns.all isDigitB then
          match stack with
          | (_, rd) :: (_, ld) :: s =>
              let n := natOfDigits ns
              evalRpnAux text rest
                ((near_present ld rd n text,
                  ld ++ " NEAR/" ++ natRepr n ++ " " ++ rd) :: s)
          | _ => none
        else none
      else evalRpnAux text rest ((term_present tok text, tok) :: stack)

/-- `BooleanQueryEngine.evaluate` from the token list on: the engine
reports a match (returns a `query` hit) iff this is `true`. -/
def evaluateQueryTokens (tokens : List String) (text : String) : Bool :=
  match evalRpnAux text (parseToRpn tokens) [] with
  | some (ok, _) => ok
  | none => false

/-- The `method="keyword"` path of `KeywordMatcher` for one configured
keyword, with the matcher's default empty stopword set left as a
parameter: `__init__` strips the keyword and routes it (regex / wildcard
/ literal), compiles the boundary-anchored pattern from its word tokens,
and `match` reports a keyword hit iff the compiled pattern fires
somewhere in the text (the `> 200` cap and the dedup pass never remove
the last hit of a pattern, and `match` bails out on whitespace-only
text). -/
def keywordHit (stopwords : List String) (kw text : String) : Bool :=
  let k0 := pyStrip kw
  if k0 = "" then false
  else if strStartsWith k0 "re:" then false
  else if strContains k0 "*" || strContains k0 "?" then false
  else
    let toks := findWords k0.data
    if toks = [] then false
    else if pyStrip text = "" then false
    else if lowerStr k0 ∈ stopwords then false
    else phraseFound toks text.data

/-! ### Spec-side predicates for C3 / C4 (written from the claims'
wording, to be proved equivalent to the code-side functions) -/

/-- The claim's "word tokens occur in the text in order … separated by
flexible whitespace, case-insensitively": `mid` is a concatenation of
segments matching the tokens up to ASCII case, with nonempty all-
whitespace gaps between consecutive tokens. -/
inductive SpecSeq : List (List Char) → List Char → Prop
  | single (t seg : List Char) :
      seg.map lowerChar = t.map lowerChar → SpecSeq [t] seg
  | cons (t seg gap : List Char) (ts : List (List Char)) (rest : List Char) :
      seg.map lowerChar = t.map lowerChar → gap ≠ [] →
      (∀ c ∈ gap, wsChar c = true) → ts ≠ [] → SpecSeq ts rest →
      SpecSeq (t :: ts) (seg ++ gap ++ rest)

/-- Claim C4's right-hand side: the keyword's (nonempty) token sequence
occurs somewhere in the text as whole words — the matched region is
preceded and followed by nothing or a non-word character. -/
def specOccurs (toks : List (List Char)) (text : List Char) : Prop :=
  toks ≠ [] ∧
  ∃ (pre mid post : List Char),
    text = pre ++ mid ++ post ∧
    SpecSeq toks mid ∧
    (pre = [] ∨ ∃ c, pre.getLast? = some c ∧ wordChar c = false) ∧
    (post = [] ∨ ∃ c, post.head? = some c ∧ wordChar c = false)

/-- Claim C3's right-hand side: an occurrence of the (lowercased) phrase
as a token subsequence of the text's word list, starting at index `i`. -/
def specPhraseAt (words phrase : List (List Char)) (i : ℕ) : Prop :=
  phrase ≠ [] ∧ (words.drop i).take phrase.length = phrase

/-- Claim C3's right-hand side: some occurrence of each phrase with
token-start positions within `n` words. -/
def specNear (left right : String) (n : ℕ) (text : String) : Prop :=
  ∃ i j,
    specPhraseAt (findWords (text.data.map lowerChar))
      ((termTokens left).map (List.map lowerChar)) i ∧
    specPhraseAt (findWords (text.data.map lowerChar))
      ((termTokens right).map (List.map lowerChar)) j ∧
    max i j - min i j ≤ n

/-! ## Theorems -/

/-! ### Character-level groundwork -/

lemma charOfNat_toNat (n : ℕ) (h : n.isValidChar) :
    (Char.ofNat n).toNat = n := by
  rw [Char.ofNat, dif_pos h]
  rfl

lemma lowerChar_toNat (c : Char) :
    (lowerChar c).toNat =
      if c.toNat ≥ 65 ∧ c.toNat ≤ 90 then c.toNat + 32 else c.toNat := by
  unfold lowerChar
  split
  case isTrue h => exact charOfNat_toNat _ (Or.inl (by omega))
  case isFalse h => rfl

lemma lowerChar_of_not_upper (c : Char)
    (h : ¬(c.toNat ≥ 65 ∧ c.toNat ≤ 90)) : lowerChar c = c := by
  simp only [lowerChar, if_neg h]

lemma charEq_iff_toNat (a b : Char) : a = b ↔ a.toNat = b.toNat := by
  constructor
  · intro h; rw [h]
  · intro h; exact Char.ext (UInt32.toNat.inj h)

lemma lowerChar_idem (c : Char) : lowerChar (lowerChar c) = lowerChar c := by
  refine lowerChar_of_not_upper _ ?_
  rw [lowerChar_toNat]
  split <;> omega

lemma isAlpha_iff_toNat (c : Char) :
    c.isAlpha = true ↔
      (65 ≤ c.toNat ∧ c.toNat ≤ 90) ∨ (97 ≤ c.toNat ∧ c.toNat ≤ 122) := by
  have hA : ('A').toNat = 65 := rfl
  have hZ : ('Z').toNat = 90 := rfl
  have ha : ('a').toNat = 97 := rfl
  have hz : ('z').toNat = 122 := rfl
  simp only [Char.isAlpha, Char.isUpper, Char.isLower, Bool.or_eq_true,
    Bool.and_eq_true, decide_eq_true_eq]
  exact Iff.rfl

lemma isDigit_iff_toNat (c : Char) :
    c.isDigit = true ↔ 48 ≤ c.toNat ∧ c.toNat ≤ 57 := by
  simp only [Char.isDigit, Bool.and_eq_true, decide_eq_true_eq]
  exact Iff.rfl

lemma schemeChar_iff_toNat (c : Char) :
    schemeChar c = true ↔
      ((65 ≤ c.toNat ∧ c.toNat ≤ 90) ∨ (97 ≤ c.toNat ∧ c.toNat ≤ 122) ∨
        (48 ≤ c.toNat ∧ c.toNat ≤ 57) ∨ c.toNat = 43 ∨ c.toNat = 45 ∨
        c.toNat = 46) := by
  simp only [schemeChar, Bool.or_eq_true, decide_eq_true_eq,
    isAlpha_iff_toNat, isDigit_iff_toNat, charEq_iff_toNat]
  have h1 : ('+').toNat = 43 := rfl
  have h2 : ('-').toNat = 45 := rfl
  have h3 : ('.').toNat = 46 := rfl
  rw [h1, h2, h3]
  tauto

lemma netlocDelim_iff_toNat (c : Char) :
    netlocDelim c = true ↔ (c.toNat = 47 ∨ c.toNat = 63 ∨ c.toNat = 35) := by
  simp only [netlocDelim, Bool.or_eq_true, decide_eq_true_eq, charEq_iff_toNat]
  have h1 : ('/').toNat = 47 := rfl
  have h2 : ('?').toNat = 63 := rfl
  have h3 : ('#').toNat = 35 := rfl
  rw [h1, h2, h3]
  tauto

lemma lowerChar_isAlpha (c : Char) (h : c.isAlpha = true) :
    (lowerChar c).isAlpha = true := by
  rw [isAlpha_iff_toNat] at h ⊢
  rw [lowerChar_toNat]
  split <;> omega

lemma lowerChar_schemeChar (c : Char) (h : schemeChar c = true) :
    schemeChar (lowerChar c) = true := by
  rw [schemeChar_iff_toNat] at h ⊢
  rw [lowerChar_toNat]
  split <;> omega

lemma lowerChar_netlocDelim (c : Char) (h : netlocDelim c = false) :
    netlocDelim (lowerChar c) = false := by
  rw [Bool.eq_false_iff] at h ⊢
  intro hc
  apply h
  rw [netlocDelim_iff_toNat] at hc ⊢
  rw [lowerChar_toNat] at hc
  revert hc
  split <;> omega

lemma lowerStr_data (s : String) : (lowerStr s).data = s.data.map lowerChar := rfl

lemma lowerStr_idem (s : String) : lowerStr (lowerStr s) = lowerStr s := by
  simp only [lowerStr, List.map_map]
  congr 1
  exact List.map_congr_left fun c _ => lowerChar_idem c

lemma string_ne_empty_iff (s : String) : s ≠ "" ↔ s.data ≠ [] := by
  cases s with
  | mk data =>
      constructor
      · intro h hd
        exact h (congrArg String.mk hd)
      · intro h he
        exact h (congrArg String.data he)

lemma splitFirst_eq_none_iff (c : Char) (l : List Char) :
    splitFirst c l = none ↔ c ∉ l := by
  unfold splitFirst
  cases hd : l.dropWhile (· ≠ c) with
  | nil =>
      simp only [iff_true_intro trivial, true_iff]
      intro hc
      have := List.dropWhile_eq_nil_iff.mp hd c hc
      simp at this
  | cons x rest =>
      have hx : x = c := by
        have hh := List.head?_dropWhile_not (fun a => decide (a ≠ c)) l
        rw [hd] at hh
        simpa using hh
      refine iff_of_false (by simp) (not_not_intro ?_)
      have hmem : x ∈ l := (List.dropWhile_sublist _).mem
        (by rw [hd]; exact List.mem_cons_self _ _)
      rwa [hx] at hmem

lemma splitFirst_some_decomp (c : Char) (l a b : List Char)
    (h : splitFirst c l = some (a, b)) : l = a ++ c :: b ∧ c ∉ a := by
  unfold splitFirst at h
  cases hd : l.dropWhile (· ≠ c) with
  | nil => rw [hd] at h; cases h
  | cons x rest =>
      rw [hd] at h
      have hx : x = c := by
        have hh := List.head?_dropWhile_not (fun a => decide (a ≠ c)) l
        rw [hd] at hh
        simpa using hh
      injection h with h'
      have ha : l.takeWhile (· ≠ c) = a := congrArg Prod.fst h'
      have hb : rest = b := congrArg Prod.snd h'
      refine ⟨?_, ?_⟩
      · have hsplit : l = l.takeWhile (· ≠ c) ++ l.dropWhile (· ≠ c) :=
          (List.takeWhile_append_dropWhile _ _).symm
        conv_lhs => rw [hsplit]
        rw [hd, hx, ha, hb]
      · intro hca
        rw [← ha] at hca
        have := List.mem_takeWhile_imp hca
        simp at this

lemma splitFirst_append (c : Char) (l₁ l₂ : List Char) (hc : c ∉ l₁) :
    splitFirst c (l₁ ++ c :: l₂) = some (l₁, l₂) := by
  have hall : ∀ a ∈ l₁, (fun a => decide (a ≠ c)) a := by
    intro a ha
    simp only [decide_eq_true_eq]
    intro he
    exact hc (he ▸ ha)
  unfold splitFirst
  rw [List.dropWhile_append_of_pos hall, List.dropWhile_cons_of_neg (by simp)]
  rw [List.takeWhile_append_of_pos hall, List.takeWhile_cons_of_neg (by simp)]
  simp

lemma splitFirst_none_of_not_mem (c : Char) (l : List Char) (h : c ∉ l) :
    splitFirst c l = none := (splitFirst_eq_none_iff c l).mpr h

lemma collapseSlashes_nil : collapseSlashes [] = [] := by rw [collapseSlashes]

lemma collapseSlashes_double (rest : List Char) :
    collapseSlashes ('/' :: '/' :: rest) = collapseSlashes ('/' :: rest) := by
  rw [collapseSlashes]

lemma collapseSlashes_cons (c : Char) (rest : List Char)
    (h : ∀ r, c = '/' → rest = '/' :: r → False) :
    collapseSlashes (c :: rest) = c :: collapseSlashes rest := by
  rw [collapseSlashes]
  exact h

lemma collapseSlashes_head? (l : List Char) :
    (collapseSlashes l).head? = l.head? := by
  induction l using collapseSlashes.induct with
  | case1 => rw [collapseSlashes_nil]
  | case2 rest ih => rw [collapseSlashes_double, ih]; rfl
  | case3 c rest h ih => rw [collapseSlashes_cons c rest h]; rfl

lemma mem_collapseSlashes (a : Char) (l : List Char) :
    a ∈ collapseSlashes l ↔ a ∈ l := by
  induction l using collapseSlashes.induct with
  | case1 => rw [collapseSlashes_nil]
  | case2 rest ih =>
      rw [collapseSlashes_double, ih]
      simp only [List.mem_cons]
      tauto
  | case3 c rest h ih =>
      rw [collapseSlashes_cons c rest h]
      simp only [List.mem_cons, ih]

lemma collapseSlashes_length_le (l : List Char) :
    (collapseSlashes l).length ≤ l.length := by
  induction l using collapseSlashes.induct with
  | case1 => rw [collapseSlashes_nil]
  | case2 rest ih =>
      rw [collapseSlashes_double]
      calc (collapseSlashes ('/' :: rest)).length ≤ ('/' :: rest).length := ih
        _ ≤ ('/' :: '/' :: rest).length := by simp
  | case3 c rest h ih =>
      rw [collapseSlashes_cons c rest h]
      simpa using ih

lemma collapsed_take_two_ne (l : List Char) (h : collapseSlashes l = l) :
    l.take 2 ≠ ['/', '/'] := by
  intro ht
  obtain ⟨r, hr⟩ : ∃ r, l = '/' :: '/' :: r := by
    cases l with
    | nil => simp at ht
    | cons x xs =>
        cases xs with
        | nil => simp at ht
        | cons y ys =>
            simp only [List.take_succ_cons, List.take_zero] at ht
            injection ht with h1 ht'
            injection ht' with h2
            exact ⟨ys, by rw [h1, h2]⟩
  rw [hr] at h
  rw [collapseSlashes_double] at h
  have h2 := congrArg List.length h
  rw [List.length_cons, List.length_cons] at h2
  have h3 := collapseSlashes_length_le ('/' :: r)
  rw [List.length_cons] at h3
  omega

lemma collapseSlashes_of_no_slash (l : List Char) (h : '/' ∉ l) :
    collapseSlashes l = l := by
  induction l with
  | nil => exact collapseSlashes_nil
  | cons c rest ih =>
      have hc : c ≠ '/' := fun hc => h (hc ▸ List.mem_cons_self _ _)
      rw [collapseSlashes_cons c rest (fun r hcc _ => hc hcc)]
      rw [ih (fun hm => h (List.mem_cons_of_mem _ hm))]

lemma collapseSlashes_idem (l : List Char) :
    collapseSlashes (collapseSlashes l) = collapseSlashes l := by
  induction l using collapseSlashes.induct with
  | case1 => rw [collapseSlashes_nil, collapseSlashes_nil]
  | case2 rest ih => rw [collapseSlashes_double, ih]
  | case3 c rest h ih =>
      rw [collapseSlashes_cons c rest h]
      rw [collapseSlashes_cons c (collapseSlashes rest) ?side, ih]
      case side =>
        intro r hc hr
        have : rest.head? = some '/' := by
          rw [← collapseSlashes_head?, hr]; rfl
        cases rest with
        | nil => simp at this
        | cons x xs =>
            simp only [List.head?_cons, Option.some.injEq] at this
            exact h xs hc (by rw [this])

/-! ### `lastSegment` / `beforeLastSegment` groundwork -/

lemma beforeLast_append_lastSegment (p : List Char) :
    beforeLastSegment p ++ lastSegment p = p := by
  unfold beforeLastSegment lastSegment
  rw [← List.reverse_append, List.takeWhile_append_dropWhile, List.reverse_reverse]

lemma lastSegment_no_slash (p : List Char) : '/' ∉ lastSegment p := by
  intro h
  unfold lastSegment at h
  rw [List.mem_reverse] at h
  have := List.mem_takeWhile_imp h
  simp at this

lemma lastSegment_subset (p : List Char) : ∀ a ∈ lastSegment p, a ∈ p := by
  intro a ha
  unfold lastSegment at ha
  rw [List.mem_reverse] at ha
  have := (List.takeWhile_sublist _).mem ha
  rwa [List.mem_reverse] at this

lemma lastSegment_of_no_slash (p : List Char) (h : '/' ∉ p) :
    lastSegment p = p ∧ beforeLastSegment p = [] := by
  have hall : ∀ a ∈ p.reverse, (fun c => decide (c ≠ '/')) a := by
    intro a ha
    simp only [decide_eq_true_eq]
    intro he
    exact h (he ▸ (List.mem_reverse.mp ha))
  unfold lastSegment beforeLastSegment
  rw [List.takeWhile_eq_self_iff.mpr hall, List.reverse_reverse,
    List.dropWhile_eq_nil_iff.mpr hall]
  exact ⟨rfl, rfl⟩

lemma lastSegment_append_no_slash (a b : List Char) (h : '/' ∉ b) :
    lastSegment (a ++ b) = lastSegment a ++ b ∧
      beforeLastSegment (a ++ b) = beforeLastSegment a := by
  have hall : ∀ x ∈ b.reverse, (fun c => decide (c ≠ '/')) x := by
    intro x hx
    simp only [decide_eq_true_eq]
    intro he
    exact h (he ▸ (List.mem_reverse.mp hx))
  unfold lastSegment beforeLastSegment
  rw [List.reverse_append, List.takeWhile_append_of_pos hall,
    List.dropWhile_append_of_pos hall, List.reverse_append,
    List.reverse_reverse]
  exact ⟨rfl, rfl⟩

lemma lastSegment_append_slash (a b : List Char) (h : '/' ∈ b) :
    lastSegment (a ++ b) = lastSegment b ∧
      beforeLastSegment (a ++ b) = a ++ beforeLastSegment b := by
  have hne : ¬ ∀ x ∈ b.reverse, (fun c => decide (c ≠ '/')) x := by
    intro hall
    have := hall '/' (List.mem_reverse.mpr h)
    simp at this
  unfold lastSegment beforeLastSegment
  rw [List.reverse_append, List.takeWhile_append, List.dropWhile_append]
  have hlen : (b.reverse.takeWhile (fun c => decide (c ≠ '/'))).length ≠
      b.reverse.length := by
    intro hl
    apply hne
    exact List.takeWhile_eq_self_iff.mp
      (List.Sublist.eq_of_length (List.takeWhile_sublist _) hl)
  have hdne : b.reverse.dropWhile (fun c => decide (c ≠ '/')) ≠ [] := by
    intro hnil
    exact hne (List.dropWhile_eq_nil_iff.mp hnil)
  rw [if_neg hlen, if_neg (by simpa using hdne)]
  refine ⟨rfl, ?_⟩
  rw [List.reverse_append, List.reverse_reverse]

lemma contains_iff_mem (l : List Char) (c : Char) :
    l.contains c = true ↔ c ∈ l := by
  simp [List.contains, List.elem_iff]

lemma lastSegment_collapseSlashes (l : List Char) :
    lastSegment (collapseSlashes l) = lastSegment l := by
  induction l using collapseSlashes.induct with
  | case1 => rw [collapseSlashes_nil]
  | case2 rest ih =>
      rw [collapseSlashes_double, ih]
      have h := lastSegment_append_slash ['/'] ('/' :: rest)
        (List.mem_cons_self _ _)
      simpa using h.1.symm
  | case3 c rest h ih =>
      rw [collapseSlashes_cons c rest h]
      by_cases hs : '/' ∈ rest
      · have hs' : '/' ∈ collapseSlashes rest := (mem_collapseSlashes _ _).mpr hs
        have h1 := (lastSegment_append_slash [c] (collapseSlashes rest) hs').1
        have h2 := (lastSegment_append_slash [c] rest hs).1
        rw [show c :: collapseSlashes rest = [c] ++ collapseSlashes rest from rfl,
          show c :: rest = [c] ++ rest from rfl, h1, h2]
        exact ih
      · rw [collapseSlashes_of_no_slash rest hs]

lemma lastSegment_beforeLast (p : List Char) :
    lastSegment (beforeLastSegment p) = [] := by
  unfold lastSegment beforeLastSegment
  rw [List.reverse_reverse]
  cases hd : p.reverse.dropWhile (· ≠ '/') with
  | nil => rfl
  | cons x xs =>
      have hx : x = '/' := by
        have hh := List.head?_dropWhile_not (fun a => decide (a ≠ '/')) p.reverse
        rw [hd] at hh
        simpa using hh
      rw [List.takeWhile_cons_of_neg (by simp [hx])]
      rfl

lemma head?_append_left (l₁ l₂ : List Char) (h : l₁ ≠ []) :
    (l₁ ++ l₂).head? = l₁.head? := by
  cases l₁ with
  | nil => exact absurd rfl h
  | cons x xs => rfl

lemma beforeLast_ne_nil_of_slash (p : List Char) (h : '/' ∈ p) :
    beforeLastSegment p ≠ [] := by
  unfold beforeLastSegment
  intro hc
  have hnil : p.reverse.dropWhile (· ≠ '/') = [] := by
    have := congrArg List.reverse hc
    simpa using this
  have hall := List.dropWhile_eq_nil_iff.mp hnil '/' (List.mem_reverse.mpr h)
  simp at hall

/-! ### Round-trip lemmas for the URL component splitters -/

lemma splitScheme_roundtrip (S : String) (rest : List Char)
    (hne : S.data ≠ []) (hhead : ∀ h, S.data.head? = some h → h.isAlpha = true)
    (hchars : ∀ ch ∈ S.data, schemeChar ch = true) (hlow : lowerStr S = S) :
    splitScheme (S.data ++ ':' :: rest) = (S, rest) := by
  have hnc : ':' ∉ S.data := by
    intro hm
    have hcolon := hchars ':' hm
    rw [schemeChar_iff_toNat] at hcolon
    have : (':').toNat = 58 := rfl
    omega
  unfold splitScheme
  rw [splitFirst_append _ _ _ hnc]
  cases hS : S.data with
  | nil => exact absurd hS hne
  | cons c cs =>
      have hca : c.isAlpha = true := hhead c (by rw [hS]; rfl)
      have hcs : cs.all schemeChar = true := by
        rw [List.all_eq_true]
        intro x hx
        exact hchars x (hS ▸ List.mem_cons_of_mem _ hx)
      simp only [hca, hcs, Bool.and_self, if_pos]
      have hmap : String.mk ((c :: cs).map lowerChar) = S := by
        rw [← hS]
        exact hlow
      rw [hmap]

lemma splitNetloc_roundtrip (n r : List Char)
    (hn : ∀ ch ∈ n, netlocDelim ch = false)
    (hr : ∀ d, r.head? = some d → netlocDelim d = true) :
    splitNetloc ('/' :: '/' :: (n ++ r)) = (String.mk n, r) := by
  have hall : ∀ a ∈ n, (fun c => !netlocDelim c) a := by
    intro a ha
    simp [hn a ha]
  unfold splitNetloc
  rw [if_pos (by simp)]
  simp only [List.drop_succ_cons, List.drop_zero]
  rw [List.takeWhile_append_of_pos hall, List.dropWhile_append_of_pos hall]
  cases hrr : r with
  | nil => simp
  | cons d rs =>
      have hd : netlocDelim d = true := hr d (by rw [hrr]; rfl)
      rw [List.takeWhile_cons_of_neg (by simp [hd]),
        List.dropWhile_cons_of_neg (by simp [hd])]
      simp

lemma splitNetloc_not_double (l : List Char) (h : l.take 2 ≠ ['/', '/']) :
    splitNetloc l = ("", l) := by
  unfold splitNetloc
  rw [if_neg h]

lemma splitFragment_of_not_mem (l : List Char) (h : '#' ∉ l) :
    splitFragment l = (l, "") := by
  unfold splitFragment
  rw [splitFirst_none_of_not_mem _ _ h]

lemma splitQuery_of_not_mem (l : List Char) (h : '?' ∉ l) :
    splitQuery l = (l, "") := by
  unfold splitQuery
  rw [splitFirst_none_of_not_mem _ _ h]

lemma splitQuery_append (a q : List Char) (h : '?' ∉ a) :
    splitQuery (a ++ '?' :: q) = (a, String.mk q) := by
  unfold splitQuery
  rw [splitFirst_append _ _ _ h]

lemma splitParams_no_semi_lastseg (p : List Char) (hl : ';' ∉ lastSegment p) :
    splitParams p = (p, "") := by
  unfold splitParams
  by_cases hs : '/' ∈ p
  · rw [if_pos ((contains_iff_mem _ _).mpr hs)]
    rw [splitFirst_none_of_not_mem _ _ hl]
  · rw [if_neg (fun hc => hs ((contains_iff_mem _ _).mp hc))]
    have hlp : ';' ∉ p := (lastSegment_of_no_slash p hs).1 ▸ hl
    rw [splitFirst_none_of_not_mem _ _ hlp]

lemma splitParams_append (p pr : List Char) (hl : ';' ∉ lastSegment p)
    (hpr : '/' ∉ pr) :
    splitParams (p ++ ';' :: pr) = (p, String.mk pr) := by
  have hprs : '/' ∉ ';' :: pr := by
    intro hm
    rcases List.mem_cons.mp hm with h | h
    · exact absurd h.symm (by decide)
    · exact hpr h
  unfold splitParams
  by_cases hs : '/' ∈ p
  · rw [if_pos ((contains_iff_mem _ _).mpr
      (List.mem_append.mpr (Or.inl hs)))]
    have hseg := lastSegment_append_no_slash p (';' :: pr) hprs
    rw [hseg.1, hseg.2]
    rw [splitFirst_append _ _ _ hl]
    show (beforeLastSegment p ++ lastSegment p, String.mk pr) = (p, String.mk pr)
    rw [beforeLast_append_lastSegment p]
  · have hnos : '/' ∉ p ++ ';' :: pr := by
      intro hm
      rcases List.mem_append.mp hm with h | h
      · exact hs h
      · exact hprs h
    rw [if_neg (fun hc => hnos ((contains_iff_mem _ _).mp hc))]
    have hlp : ';' ∉ p := (lastSegment_of_no_slash p hs).1 ▸ hl
    rw [splitFirst_append _ _ _ hlp]

lemma stringMk_data (s : String) : String.mk s.data = s := rfl

lemma mk_ne_empty_iff (l : List Char) : (String.mk l ≠ "") ↔ l ≠ [] := by
  rw [string_ne_empty_iff]

lemma lastSegment_single_slash : lastSegment ['/'] = [] := by decide

lemma lastSegment_slash_cons (P : List Char) (h : ';' ∉ lastSegment P) :
    ';' ∉ lastSegment ('/' :: P) := by
  rw [show '/' :: P = ['/'] ++ P from rfl]
  by_cases hs : '/' ∈ P
  · rw [(lastSegment_append_slash ['/'] P hs).1]
    exact h
  · rw [(lastSegment_append_no_slash ['/'] P hs).1, lastSegment_single_slash,
      List.nil_append]
    rw [(lastSegment_of_no_slash P hs).1] at h
    exact h

/-- The fragment and query steps of `urlsplit`, applied to the string
`urlunsplit` builds: `pathpart ++ ('?' ++ query)?`. -/
lemma parse_fragment_query (pathpart Q : List Char)
    (hq : '?' ∉ pathpart) (hf : '#' ∉ pathpart) (hfq : '#' ∉ Q) :
    splitFragment (pathpart ++ (if Q ≠ [] then '?' :: Q else [])) =
        (pathpart ++ (if Q ≠ [] then '?' :: Q else []), "") ∧
      splitQuery (pathpart ++ (if Q ≠ [] then '?' :: Q else [])) =
        (pathpart, String.mk Q) := by
  by_cases hQ : Q = []
  · subst hQ
    rw [if_neg (by simp)]
    rw [List.append_nil]
    exact ⟨splitFragment_of_not_mem _ hf, splitQuery_of_not_mem _ hq⟩
  · rw [if_pos hQ]
    constructor
    · refine splitFragment_of_not_mem _ ?_
      intro hm
      rcases List.mem_append.mp hm with h | h
      · exact hf h
      · rcases List.mem_cons.mp h with h | h
        · exact absurd h.symm (by decide)
        · exact hfq h
    · exact splitQuery_append _ _ hq

/-- The params step of `urlparse`, applied to the path part `urlunparse`
builds (`P' ++ (';' ++ params)?`), for an invariant-satisfying tuple. -/
lemma parse_params_step (S : String) (Pa PR : List Char)
    (hlast : usesParams.contains S = true → ';' ∉ lastSegment Pa)
    (hps : usesParams.contains S = false → PR = [])
    (hpr : '/' ∉ PR) :
    (if usesParams.contains S ∧
          (if PR ≠ [] then Pa ++ ';' :: PR else Pa).contains ';'
      then splitParams (if PR ≠ [] then Pa ++ ';' :: PR else Pa)
      else ((if PR ≠ [] then Pa ++ ';' :: PR else Pa), "")) =
      (Pa, String.mk PR) := by
  by_cases hPR : PR = []
  · subst hPR
    rw [if_neg (show ¬(([] : List Char) ≠ []) from not_not_intro rfl)]
    by_cases hu : usesParams.contains S = true
    · by_cases hsemi : ';' ∈ Pa
      · rw [if_pos (show usesParams.contains S = true ∧ Pa.contains ';' = true
          from ⟨hu, (contains_iff_mem _ _).mpr hsemi⟩)]
        exact splitParams_no_semi_lastseg Pa (hlast hu)
      · rw [if_neg
          (show ¬(usesParams.contains S = true ∧ Pa.contains ';' = true)
            from fun hcon => hsemi ((contains_iff_mem _ _).mp hcon.2))]
    · rw [if_neg
        (show ¬(usesParams.contains S = true ∧ Pa.contains ';' = true)
          from fun hcon => hu hcon.1)]
  · have hu : usesParams.contains S = true := by
      by_contra hu
      exact hPR (hps (Bool.eq_false_iff.mpr hu))
    rw [if_pos hPR]
    rw [if_pos (show usesParams.contains S = true ∧
        (Pa ++ ';' :: PR).contains ';' = true from ⟨hu,
          (contains_iff_mem _ _).mpr
            (List.mem_append.mpr (Or.inr (List.mem_cons_self _ _)))⟩)]
    exact splitParams_append Pa PR (hlast hu) hpr

lemma take_two_append_ne (P tail : List Char) (hP2 : P.take 2 ≠ ['/', '/'])
    (htail : ∀ d, tail.head? = some d → d ≠ '/') :
    (P ++ tail).take 2 ≠ ['/', '/'] := by
  cases P with
  | nil =>
      cases tail with
      | nil => simp
      | cons t ts =>
          intro h
          simp only [List.nil_append, List.take_succ_cons] at h
          injection h with h1 _
          exact htail t rfl h1
  | cons x xs =>
      cases xs with
      | nil =>
          intro h
          simp only [List.cons_append, List.nil_append,
            List.take_succ_cons] at h
          injection h with h1 h2
          cases tail with
          | nil => simp at h2
          | cons t ts =>
              simp only [List.take_succ_cons, List.take_zero] at h2
              injection h2 with h3 _
              exact htail t rfl h3
      | cons y ys =>
          intro h
          simp only [List.cons_append, List.take_succ_cons,
            List.take_zero] at h
          apply hP2
          simpa using h

lemma lowerStr_eq_empty_iff (s : String) : lowerStr s = "" ↔ s = "" := by
  cases s with
  | mk data =>
      constructor
      · intro h
        have : data.map lowerChar = [] := congrArg String.data h
        simp at this
        rw [this]
      · intro h
        rw [h]
        rfl

/-! ### C6 — adaptive throttle penalty invariant -/

lemma noteHostResult_penalty_bounds (http_status : ℕ) (now : ℚ)
    (st : HostThrottleState) (h₁ : 1/5 ≤ st.penalty) (h₂ : st.penalty ≤ 1) :
    1/5 ≤ (noteHostResult http_status now st).penalty ∧
      (noteHostResult http_status now st).penalty ≤ 1 := by
  unfold noteHostResult
  split
  · constructor
    · exact le_max_left (1/5 : ℚ) _
    · refine max_le (by norm_num) ?_
      nlinarith
  · split
    · constructor
      · refine le_min (by norm_num) (by nlinarith)
      · exact min_le_left (1:ℚ) _
    · exact ⟨h₁, h₂⟩

lemma runHostResults_penalty_bounds (events : List (ℕ × ℚ))
    (st : HostThrottleState) (h₁ : 1/5 ≤ st.penalty) (h₂ : st.penalty ≤ 1) :
    1/5 ≤ (runHostResults events st).penalty ∧
      (runHostResults events st).penalty ≤ 1 := by
  induction events generalizing st with
  | nil => exact ⟨h₁, h₂⟩
  | cons e rest ih =>
      have hb := noteHostResult_penalty_bounds e.1 e.2 st h₁ h₂
      exact ih _ hb.1 hb.2

/-- C6: starting from the initial throttle state (penalty `1.0`), the host
penalty stays within `[0.2, 1.0]` under every sequence of response
notifications; a 429/502/503 response halves the penalty (floored at `0.2`)
and pushes `next_allowed_at` out to at least `now + 2.0`, and a `2xx`/`3xx`
response multiplies the penalty by `1.05` (capped at `1.0`). -/
theorem hostThrottle_penalty_invariant :
    (∀ events : List (ℕ × ℚ),
        1/5 ≤ (runHostResults events {}).penalty ∧
          (runHostResults events {}).penalty ≤ 1) ∧
    (∀ s now st, (s = 429 ∨ s = 502 ∨ s = 503) →
        noteHostResult s now st =
          { next_allowed_at := max st.next_allowed_at (now + 2),
            penalty := max (1/5) (st.penalty * (1/2)) }) ∧
    (∀ s now st, 200 ≤ s → s < 400 →
        noteHostResult s now st =
          { st with penalty := min 1 (st.penalty * (21/20)) }) := by
  refine ⟨fun events => runHostResults_penalty_bounds events {} (by norm_num) (by norm_num),
    fun s now st hs => ?_, fun s now st h₁ h₂ => ?_⟩
  · simp only [noteHostResult, if_pos hs]
  · have hns : ¬(s = 429 ∨ s = 502 ∨ s = 503) := by omega
    simp only [noteHostResult, if_neg hns, if_pos (And.intro h₁ h₂)]

/-- Witness for `hostThrottle_penalty_invariant`: concrete instantiation of
each hypothesis-bearing conjunct. -/
theorem hostThrottle_penalty_invariant_witness :
    noteHostResult 429 0 {} =
      { next_allowed_at := max 0 (0 + 2), penalty := max (1/5) (1 * (1/2)) } ∧
    noteHostResult 200 0 {} = { ({} : HostThrottleState) with penalty := min 1 (1 * (21/20)) } :=
  ⟨hostThrottle_penalty_invariant.2.1 429 0 {} (Or.inl rfl),
   hostThrottle_penalty_invariant.2.2 200 0 {} (by norm_num) (by norm_num)⟩

/-! ### C5 — relevance score formula -/

/-- C5: for a non-negative entity density (the only densities
`compute_entity_density` produces), `compute_relevance` returns exactly the
specification's formula, where each similarity term is the code's cosine
similarity against the corresponding centroid and is zero when that centroid
is absent. -/
theorem compute_relevance_formula (doc_vec : List ℚ) (doc_norm : ℚ)
    (topic : TopicVector) (hv_centroid ir_centroid : Option (List ℚ × ℚ))
    (url_penalty entity_density : ℚ) (hd : 0 ≤ entity_density) :
    (compute_relevance doc_vec doc_norm topic hv_centroid ir_centroid
        url_penalty entity_density).relevance_score =
      relevanceSpecFormula
        (if topic.norm > 0 then
            cosine_similarity doc_vec doc_norm topic.vec topic.norm
          else 0)
        (hv_centroid.elim 0 fun c => cosine_similarity doc_vec doc_norm c.1 c.2)
        (ir_centroid.elim 0 fun c => cosine_similarity doc_vec doc_norm c.1 c.2)
        url_penalty entity_density := by
  rcases hv_centroid with _ | hv <;> rcases ir_centroid with _ | ir <;>
    · simp only [compute_relevance, relevanceSpecFormula, Option.elim]
      rcases eq_or_lt_of_le hd with h | h
      · rw [if_pos (le_of_eq h.symm), if_pos h.symm]
      · rw [if_neg (show ¬entity_density ≤ 0 by linarith),
          if_neg (show ¬entity_density = 0 by linarith)]
        ring

/-- Witness for `compute_relevance_formula` at a concrete input. -/
theorem compute_relevance_formula_witness :
    (0:ℚ) ≤ 0 ∧
      (compute_relevance [1] 1 ⟨[1], 1⟩ none (some ([1], 1)) (1/10)
          0).relevance_score =
        relevanceSpecFormula (cosine_similarity [1] 1 [1] 1) 0
          (cosine_similarity [1] 1 [1] 1) (1/10) 0 := by
  refine ⟨le_rfl, ?_⟩
  have h := compute_relevance_formula [1] 1 ⟨[1], 1⟩ none (some ([1], 1))
    (1/10) 0 le_rfl
  norm_num at h ⊢
  exact h

/-! ### C1 — `upsert_urls` with `preserveDone=true` -/

/-- C1 counterexample: the claim as stated is false.  The defensive re-queue
in `upsert_urls` applies only to URLs ending in `.pdf`, not to every
document-type URL: a `.docx` URL marked `done` with no stored
`local_path`/`sha256` keeps status `done`, while the claim requires it to be
re-queued to the given status. -/
theorem upsertClaimC1_is_false : ¬ upsertClaimC1 := by
  intro h
  have hc := h ⟨"https://host/a.docx", "done", "2024-01-01", none, none, none⟩
    "queued" "2024-01-02" rfl
  revert hc
  decide

/-- C1 (amended): for a stored row currently `done`, an upsert with
`preserveDone=true` keeps the status `done` unless the URL ends in `.pdf`
(case-insensitively) and the stored `local_path` or `sha256` is empty, in
which case the row is re-queued to the given status.  All other row fields
(including `discovered_at`) are unchanged. -/
theorem upsert_preserveDone_done_row (r : UrlRow) (status discovered_at : String)
    (hdone : r.status = "done") :
    upsertUrlRow true r.url status discovered_at (some r) =
      { r with status :=
          if urlLikePdf r.url ∧
              ((r.local_path.getD "") = "" ∨ (r.sha256.getD "") = "")
            then status else "done" } := by
  simp only [upsertUrlRow]
  by_cases hp : urlLikePdf r.url = true <;>
    by_cases hlp : (r.local_path.getD "") = "" <;>
      by_cases hsh : (r.sha256.getD "") = "" <;>
        simp [hdone, hp, hlp, hsh]

/-- Witness for `upsert_preserveDone_done_row`: a `done` PDF row without a
stored hash/path is re-queued. -/
theorem upsert_preserveDone_done_row_witness :
    upsertUrlRow true "https://host/a.pdf" "queued" "t2"
        (some { url := "https://host/a.pdf", status := "done",
                discovered_at := "t1" }) =
      { url := "https://host/a.pdf", status := "queued",
        discovered_at := "t1" } := by
  have h := upsert_preserveDone_done_row
    { url := "https://host/a.pdf", status := "done", discovered_at := "t1" }
    "queued" "t2" rfl
  rw [h]
  decide

/-! ### C9 — the `urlparse`/`urlunparse` round trip on normalised components -/

lemma urlparse_urlunparse (c : UrlComponents) (hc : UrlInv c) :
    urlparse (urlunparse c) = slashAdjust c := by
  obtain ⟨S, N, Pstr, PRstr, Qstr, F⟩ := c
  obtain ⟨P⟩ := Pstr
  obtain ⟨PR⟩ := PRstr
  obtain ⟨Q⟩ := Qstr
  obtain ⟨hfrag, hsne, hshead, hschars, hslow, hnchars, hnlow, hpnoq, hpnof,
    hpcol, hplast, hpsch, hprch, hqnof, hnp⟩ := hc
  dsimp only at hfrag hsne hshead hschars hslow hnchars hnlow hpnoq hpnof
  dsimp only at hpcol hplast hpsch hprch hqnof hnp
  subst hfrag
  have hpsch' : usesParams.contains S = false → PR = [] :=
    fun h => congrArg String.data (hpsch h)
  have hSne : S.data ≠ [] := (string_ne_empty_iff S).mp hsne
  have hmem_u0 : ∀ a ∈ (if PR ≠ [] then P ++ ';' :: PR else P),
      a ∈ P ∨ a = ';' ∨ a ∈ PR := by
    intro a ha
    by_cases h : PR = []
    · rw [if_neg (not_not_intro h)] at ha
      exact Or.inl ha
    · rw [if_pos h] at ha
      rcases List.mem_append.mp ha with h1 | h1
      · exact Or.inl h1
      · rcases List.mem_cons.mp h1 with h2 | h2
        · exact Or.inr (Or.inl h2)
        · exact Or.inr (Or.inr h2)
  have hq0 : '?' ∉ (if PR ≠ [] then P ++ ';' :: PR else P) := by
    intro hm
    rcases hmem_u0 _ hm with h | h | h
    · exact hpnoq h
    · exact absurd h (by decide)
    · exact (hprch _ h).2.1 rfl
  have hf0 : '#' ∉ (if PR ≠ [] then P ++ ';' :: PR else P) := by
    intro hm
    rcases hmem_u0 _ hm with h | h | h
    · exact hpnof h
    · exact absurd h (by decide)
    · exact (hprch _ h).2.2 rfl
  have hprs : '/' ∉ PR := fun hm => (hprch _ hm).1 rfl
  have hurl0eq : (if (String.mk PR) ≠ "" then P ++ ';' :: PR else P)
      = (if PR ≠ [] then P ++ ';' :: PR else P) := by
    by_cases h : PR = [] <;> simp [h, mk_ne_empty_iff]
  unfold urlunparse
  dsimp only
  rw [hurl0eq]
  rw [if_neg (not_not_intro rfl)]
  rw [if_pos hsne]
  have hq_assoc : ∀ v : List Char,
      (if (String.mk Q) ≠ "" then (S.data ++ ':' :: v) ++ '?' :: Q
        else (S.data ++ ':' :: v)) =
      S.data ++ ':' :: (v ++ (if Q ≠ [] then '?' :: Q else [])) := by
    intro v
    by_cases h : Q = [] <;> simp [h, mk_ne_empty_iff]
  rw [hq_assoc]
  unfold urlparse
  dsimp only
  rw [splitScheme_roundtrip S _ hSne hshead hschars hslow]
  dsimp only
  by_cases hbr : N ≠ "" ∨ (S ≠ "" ∧ usesNetloc.contains S = true ∧
      (if PR ≠ [] then P ++ ';' :: PR else P).take 2 ≠ ['/', '/'])
  · rw [if_pos hbr]
    by_cases ht : (if PR ≠ [] then P ++ ';' :: PR else P) ≠ [] ∧
        (if PR ≠ [] then P ++ ';' :: PR else P).head? ≠ some '/'
    · rw [if_pos ht]
      rw [show ('/' :: '/' :: N.data ++
            ('/' :: (if PR ≠ [] then P ++ ';' :: PR else P))) ++
            (if Q ≠ [] then '?' :: Q else []) =
          '/' :: '/' :: (N.data ++
            (('/' :: (if PR ≠ [] then P ++ ';' :: PR else P)) ++
              (if Q ≠ [] then '?' :: Q else []))) by
        simp [List.append_assoc]]
      rw [splitNetloc_roundtrip N.data _ hnchars (by
        intro d hd
        simp only [List.cons_append, List.head?_cons,
          Option.some.injEq] at hd
        rw [← hd]
        decide)]
      dsimp only
      obtain ⟨hfq1, hfq2⟩ := parse_fragment_query
        ('/' :: (if PR ≠ [] then P ++ ';' :: PR else P)) Q
        (by
          intro hm
          rcases List.mem_cons.mp hm with h | h
          · exact absurd h.symm (by decide)
          · exact hq0 h)
        (by
          intro hm
          rcases List.mem_cons.mp hm with h | h
          · exact absurd h.symm (by decide)
          · exact hf0 h)
        hqnof
      rw [hfq1]
      dsimp only
      rw [hfq2]
      dsimp only
      rw [show '/' :: (if PR ≠ [] then P ++ ';' :: PR else P) =
          (if PR ≠ [] then ('/' :: P) ++ ';' :: PR else ('/' :: P)) by
        by_cases h : PR = [] <;> simp [h]]
      rw [parse_params_step S ('/' :: P) PR
        (fun hu => lastSegment_slash_cons P (hplast hu)) hpsch' hprs]
      dsimp only
      have hN : N = "" := by
        by_contra hNne
        rcases hnp hNne with hhd | ⟨hPe, hPRe⟩
        · apply ht.2
          by_cases h : PR = []
          · rw [if_neg (not_not_intro h)]
            exact hhd
          · rw [if_pos h]
            have hPne : P ≠ [] := by
              intro hP
              rw [hP] at hhd
              simp at hhd
            rw [head?_append_left P (';' :: PR) hPne]
            exact hhd
        · apply ht.1
          have hP : P = [] := congrArg String.data hPe
          have hPR : PR = [] := congrArg String.data hPRe
          rw [if_neg (not_not_intro hPR), hP]
      have huses : usesNetloc.contains S = true := by
        rcases hbr with h | h
        · exact absurd hN h
        · exact h.2.1
      unfold slashAdjust
      dsimp only
      rw [hurl0eq]
      rw [if_pos ⟨hN, huses, ht.1, ht.2⟩]

    · rw [if_neg ht]
      have hor : (if PR ≠ [] then P ++ ';' :: PR else P) = [] ∨
          (if PR ≠ [] then P ++ ';' :: PR else P).head? = some '/' := by
        by_cases h1 : (if PR ≠ [] then P ++ ';' :: PR else P) = []
        · exact Or.inl h1
        · refine Or.inr ?_
          by_contra h2
          exact ht ⟨h1, h2⟩
      rw [show ('/' :: '/' :: N.data ++
            (if PR ≠ [] then P ++ ';' :: PR else P)) ++
            (if Q ≠ [] then '?' :: Q else []) =
          '/' :: '/' :: (N.data ++
            ((if PR ≠ [] then P ++ ';' :: PR else P) ++
              (if Q ≠ [] then '?' :: Q else []))) by
        simp [List.append_assoc]]
      rw [splitNetloc_roundtrip N.data _ hnchars (by
        intro d hd
        rcases hor with h | h
        · rw [h, List.nil_append] at hd
          by_cases hQ : Q = []
          · rw [if_neg (not_not_intro hQ)] at hd
            simp at hd
          · rw [if_pos hQ] at hd
            simp only [List.head?_cons, Option.some.injEq] at hd
            rw [← hd]
            decide
        · have hne : (if PR ≠ [] then P ++ ';' :: PR else P) ≠ [] := by
            intro he
            rw [he] at h
            simp at h
          rw [head?_append_left _ _ hne, h] at hd
          injection hd with hd'
          rw [← hd']
          decide)]
      dsimp only
      obtain ⟨hfq1, hfq2⟩ := parse_fragment_query
        (if PR ≠ [] then P ++ ';' :: PR else P) Q hq0 hf0 hqnof
      rw [hfq1]
      dsimp only
      rw [hfq2]
      dsimp only
      rw [parse_params_step S P PR (fun hu => hplast hu) hpsch' hprs]
      dsimp only
      unfold slashAdjust
      dsimp only
      rw [hurl0eq]
      rw [if_neg (fun hcond => ht ⟨hcond.2.2.1, hcond.2.2.2⟩)]

  · rw [if_neg hbr]
    have hbr' := not_or.mp hbr
    have hN : N = "" := not_not.mp hbr'.1
    have hqhead : ∀ d, (if Q ≠ [] then '?' :: Q else []).head? = some d →
        d ≠ '/' := by
      intro d hd
      by_cases hQ : Q = []
      · rw [if_neg (not_not_intro hQ)] at hd
        simp at hd
      · rw [if_pos hQ] at hd
        simp only [List.head?_cons, Option.some.injEq] at hd
        rw [← hd]
        decide
    have hP2 := collapsed_take_two_ne P hpcol
    have htake : ((if PR ≠ [] then P ++ ';' :: PR else P) ++
        (if Q ≠ [] then '?' :: Q else [])).take 2 ≠ ['/', '/'] := by
      by_cases h : PR = []
      · rw [if_neg (not_not_intro h)]
        exact take_two_append_ne P _ hP2 hqhead
      · rw [if_pos h, List.append_assoc]
        refine take_two_append_ne P _ hP2 ?_
        intro d hd
        simp only [List.cons_append, List.head?_cons, Option.some.injEq] at hd
        rw [← hd]
        decide
    have hu0take : (if PR ≠ [] then P ++ ';' :: PR else P).take 2 ≠
        ['/', '/'] := by
      by_cases h : PR = []
      · rw [if_neg (not_not_intro h)]
        exact hP2
      · rw [if_pos h]
        refine take_two_append_ne P _ hP2 ?_
        intro d hd
        simp only [List.head?_cons, Option.some.injEq] at hd
        rw [← hd]
        decide
    have husesf : ¬ usesNetloc.contains S = true := by
      intro hu
      exact hbr'.2 ⟨hsne, hu, hu0take⟩
    rw [splitNetloc_not_double _ htake]
    dsimp only
    obtain ⟨hfq1, hfq2⟩ := parse_fragment_query
      (if PR ≠ [] then P ++ ';' :: PR else P) Q hq0 hf0 hqnof
    rw [hfq1]
    dsimp only
    rw [hfq2]
    dsimp only
    rw [parse_params_step S P PR (fun hu => hplast hu) hpsch' hprs]
    dsimp only
    unfold slashAdjust
    dsimp only
    rw [hurl0eq]
    rw [if_neg (fun hcond => husesf hcond.2.1)]
    subst hN
    rfl

/-! ### Facts about the parser's raw outputs -/

lemma splitScheme_fst_spec (l : List Char) :
    (splitScheme l).1 = "" ∨
      ((splitScheme l).1.data ≠ [] ∧
        (∀ h, (splitScheme l).1.data.head? = some h → h.isAlpha = true) ∧
        (∀ ch ∈ (splitScheme l).1.data, schemeChar ch = true) ∧
        lowerStr (splitScheme l).1 = (splitScheme l).1) := by
  unfold splitScheme
  cases hsf : splitFirst ':' l with
  | none => exact Or.inl rfl
  | some pr =>
      obtain ⟨pre, rest⟩ := pr
      cases pre with
      | nil => exact Or.inl rfl
      | cons c cs =>
          dsimp only
          by_cases hv : (c.isAlpha && cs.all schemeChar) = true
          · rw [if_pos hv]
            rw [Bool.and_eq_true] at hv
            refine Or.inr ⟨by simp, ?_, ?_, ?_⟩
            · intro h hh
              simp only [List.map_cons, List.head?_cons,
                Option.some.injEq] at hh
              rw [← hh]
              exact lowerChar_isAlpha c hv.1
            · intro ch hch
              simp only [List.mem_map] at hch
              obtain ⟨orig, horig, hlc⟩ := hch
              rw [← hlc]
              refine lowerChar_schemeChar orig ?_
              rcases List.mem_cons.mp horig with h | h
              · rw [h]
                rw [schemeChar_iff_toNat]
                rw [isAlpha_iff_toNat] at hv
                have := hv.1
                tauto
              · exact List.all_eq_true.mp hv.2 orig h
            · exact lowerStr_idem (String.mk (c :: cs))
          · rw [if_neg hv]
            exact Or.inl rfl

lemma splitNetloc_fst_chars (l : List Char) :
    ∀ ch ∈ (splitNetloc l).1.data, netlocDelim ch = false := by
  unfold splitNetloc
  split
  · intro ch hch
    dsimp only at hch
    have := List.mem_takeWhile_imp hch
    simpa using this
  · intro ch hch
    simp at hch

lemma splitNetloc_snd_head (l : List Char) (hne : (splitNetloc l).1 ≠ "") :
    ∀ d, (splitNetloc l).2.head? = some d → netlocDelim d = true := by
  unfold splitNetloc at hne ⊢
  by_cases hc : l.take 2 = ['/', '/']
  · rw [if_pos hc]
    intro d hd
    dsimp only at hd
    have hh := List.head?_dropWhile_not (fun c => !netlocDelim c) (l.drop 2)
    rw [hd] at hh
    simpa using hh
  · rw [if_neg hc] at hne
    exact absurd rfl hne

lemma splitFragment_fst_no_hash (l : List Char) :
    '#' ∉ (splitFragment l).1 := by
  unfold splitFragment
  cases hsf : splitFirst '#' l with
  | none => exact (splitFirst_eq_none_iff _ _).mp hsf
  | some pr =>
      obtain ⟨a, b⟩ := pr
      exact (splitFirst_some_decomp _ _ _ _ hsf).2

lemma splitFragment_fst_subset (l : List Char) :
    ∀ x ∈ (splitFragment l).1, x ∈ l := by
  unfold splitFragment
  cases hsf : splitFirst '#' l with
  | none => exact fun x hx => hx
  | some pr =>
      obtain ⟨a, b⟩ := pr
      intro x hx
      rw [(splitFirst_some_decomp _ _ _ _ hsf).1]
      exact List.mem_append.mpr (Or.inl hx)

lemma splitQuery_fst_no_q (l : List Char) : '?' ∉ (splitQuery l).1 := by
  unfold splitQuery
  cases hsf : splitFirst '?' l with
  | none => exact (splitFirst_eq_none_iff _ _).mp hsf
  | some pr =>
      obtain ⟨a, b⟩ := pr
      exact (splitFirst_some_decomp _ _ _ _ hsf).2

lemma splitQuery_fst_subset (l : List Char) :
    ∀ x ∈ (splitQuery l).1, x ∈ l := by
  unfold splitQuery
  cases hsf : splitFirst '?' l with
  | none => exact fun x hx => hx
  | some pr =>
      obtain ⟨a, b⟩ := pr
      intro x hx
      rw [(splitFirst_some_decomp _ _ _ _ hsf).1]
      exact List.mem_append.mpr (Or.inl hx)

lemma splitQuery_snd_subset (l : List Char) :
    ∀ x ∈ (splitQuery l).2.data, x ∈ l := by
  unfold splitQuery
  cases hsf : splitFirst '?' l with
  | none => intro x hx; simp at hx
  | some pr =>
      obtain ⟨a, b⟩ := pr
      intro x hx
      dsimp only at hx
      rw [(splitFirst_some_decomp _ _ _ _ hsf).1]
      exact List.mem_append.mpr (Or.inr (List.mem_cons_of_mem _ hx))

lemma splitParams_fst_subset (p : List Char) :
    ∀ x ∈ (splitParams p).1, x ∈ p := by
  unfold splitParams
  split
  · cases hsf : splitFirst ';' (lastSegment p) with
    | none => exact fun x hx => hx
    | some pr =>
        obtain ⟨pre, post⟩ := pr
        intro x hx
        dsimp only at hx
        rcases List.mem_append.mp hx with h | h
        · have hm : x ∈ beforeLastSegment p ++ lastSegment p :=
            List.mem_append.mpr (Or.inl h)
          rwa [beforeLast_append_lastSegment] at hm
        · have hdec := (splitFirst_some_decomp _ _ _ _ hsf).1
          refine lastSegment_subset p x ?_
          rw [hdec]
          exact List.mem_append.mpr (Or.inl h)
  · cases hsf : splitFirst ';' p with
    | none => exact fun x hx => hx
    | some pr =>
        obtain ⟨pre, post⟩ := pr
        intro x hx
        dsimp only at hx
        rw [(splitFirst_some_decomp _ _ _ _ hsf).1]
        exact List.mem_append.mpr (Or.inl hx)

lemma splitParams_snd_spec (p : List Char) :
    ∀ x ∈ (splitParams p).2.data, x ∈ p ∧ x ≠ '/' := by
  unfold splitParams
  split
  · cases hsf : splitFirst ';' (lastSegment p) with
    | none => intro x hx; simp at hx
    | some pr =>
        obtain ⟨pre, post⟩ := pr
        intro x hx
        dsimp only at hx
        have hdec := (splitFirst_some_decomp _ _ _ _ hsf).1
        have hseg : x ∈ lastSegment p := by
          rw [hdec]
          exact List.mem_append.mpr (Or.inr (List.mem_cons_of_mem _ hx))
        refine ⟨lastSegment_subset p x hseg, ?_⟩
        intro he
        exact lastSegment_no_slash p (he ▸ hseg)
  · rename_i hns
    cases hsf : splitFirst ';' p with
    | none => intro x hx; simp at hx
    | some pr =>
        obtain ⟨pre, post⟩ := pr
        intro x hx
        dsimp only at hx
        have hdec := (splitFirst_some_decomp _ _ _ _ hsf).1
        have hxp : x ∈ p := by
          rw [hdec]
          exact List.mem_append.mpr (Or.inr (List.mem_cons_of_mem _ hx))
        refine ⟨hxp, ?_⟩
        intro he
        exact hns ((contains_iff_mem _ _).mpr (he ▸ hxp))

lemma splitParams_fst_lastseg (p : List Char) :
    ';' ∉ lastSegment (splitParams p).1 := by
  unfold splitParams
  split
  · cases hsf : splitFirst ';' (lastSegment p) with
    | none =>
        dsimp only
        exact (splitFirst_eq_none_iff _ _).mp hsf
    | some pr =>
        obtain ⟨pre, post⟩ := pr
        dsimp only
        obtain ⟨hdec, hnpre⟩ := splitFirst_some_decomp _ _ _ _ hsf
        have hnsl : '/' ∉ pre := by
          intro hm
          refine lastSegment_no_slash p ?_
          rw [hdec]
          exact List.mem_append.mpr (Or.inl hm)
        rw [(lastSegment_append_no_slash _ _ hnsl).1, lastSegment_beforeLast]
        simpa using hnpre
  · cases hsf : splitFirst ';' p with
    | none =>
        dsimp only
        intro hm
        exact (splitFirst_eq_none_iff _ _).mp hsf (lastSegment_subset p _ hm)
    | some pr =>
        obtain ⟨pre, post⟩ := pr
        dsimp only
        obtain ⟨hdec, hnpre⟩ := splitFirst_some_decomp _ _ _ _ hsf
        rename_i hns
        have hnsl : '/' ∉ pre := by
          intro hm
          apply hns
          refine (contains_iff_mem _ _).mpr ?_
          rw [hdec]
          exact List.mem_append.mpr (Or.inl hm)
        intro hm
        exact hnpre ((lastSegment_of_no_slash pre hnsl).1 ▸ hm)

lemma splitFragment_nil : splitFragment [] = ([], "") := rfl

lemma splitQuery_nil : splitQuery [] = ([], "") := rfl

lemma splitFragment_fst_head (l : List Char) (d : Char) (hd : l.head? = some d)
    (hne : d ≠ '#') : (splitFragment l).1.head? = some d := by
  unfold splitFragment
  cases hsf : splitFirst '#' l with
  | none => exact hd
  | some pr =>
      obtain ⟨a, b⟩ := pr
      obtain ⟨hdec, hna⟩ := splitFirst_some_decomp _ _ _ _ hsf
      cases a with
      | nil =>
          rw [hdec] at hd
          simp only [List.nil_append, List.head?_cons, Option.some.injEq] at hd
          exact absurd hd.symm hne
      | cons x xs =>
          dsimp only
          rw [hdec] at hd
          simpa using hd

lemma splitFragment_fst_of_hash (l : List Char) (hd : l.head? = some '#') :
    (splitFragment l).1 = [] := by
  cases l with
  | nil => simp at hd
  | cons x xs =>
      simp only [List.head?_cons, Option.some.injEq] at hd
      subst hd
      unfold splitFragment splitFirst
      rw [List.dropWhile_cons_of_neg (by simp)]
      rw [List.takeWhile_cons_of_neg (by simp)]

lemma splitQuery_fst_head (l : List Char) (d : Char) (hd : l.head? = some d)
    (hne : d ≠ '?') : (splitQuery l).1.head? = some d := by
  unfold splitQuery
  cases hsf : splitFirst '?' l with
  | none => exact hd
  | some pr =>
      obtain ⟨a, b⟩ := pr
      obtain ⟨hdec, hna⟩ := splitFirst_some_decomp _ _ _ _ hsf
      cases a with
      | nil =>
          rw [hdec] at hd
          simp only [List.nil_append, List.head?_cons, Option.some.injEq] at hd
          exact absurd hd.symm hne
      | cons x xs =>
          dsimp only
          rw [hdec] at hd
          simpa using hd

lemma splitQuery_fst_of_q (l : List Char) (hd : l.head? = some '?') :
    (splitQuery l).1 = [] := by
  cases l with
  | nil => simp at hd
  | cons x xs =>
      simp only [List.head?_cons, Option.some.injEq] at hd
      subst hd
      unfold splitQuery splitFirst
      rw [List.dropWhile_cons_of_neg (by simp)]
      rw [List.takeWhile_cons_of_neg (by simp)]

lemma splitParams_fst_head_slash (p : List Char) (hd : p.head? = some '/') :
    (splitParams p).1.head? = some '/' := by
  have hs : '/' ∈ p := by
    cases p with
    | nil => simp at hd
    | cons x xs =>
        simp only [List.head?_cons, Option.some.injEq] at hd
        rw [← hd]
        exact List.mem_cons_self _ _
  unfold splitParams
  rw [if_pos ((contains_iff_mem _ _).mpr hs)]
  cases hsf : splitFirst ';' (lastSegment p) with
  | none => exact hd
  | some pr =>
      obtain ⟨pre, post⟩ := pr
      dsimp only
      have hbne := beforeLast_ne_nil_of_slash p hs
      rw [head?_append_left _ _ hbne]
      have hp := beforeLast_append_lastSegment p
      rw [← hp] at hd
      rwa [head?_append_left _ _ hbne] at hd

lemma normComponents_inv (u : String) : UrlInv (normComponents u) := by
  unfold normComponents urlparse
  dsimp only
  rcases hsp : splitScheme u.data with ⟨S, r1⟩
  rcases hnl : splitNetloc r1 with ⟨N, r2⟩
  rcases hfr : splitFragment r2 with ⟨r3, Fg⟩
  rcases hqr : splitQuery r3 with ⟨r4, Qu⟩
  dsimp only
  -- Scheme facts.
  have hSspec := splitScheme_fst_spec u.data
  rw [hsp] at hSspec
  dsimp only at hSspec
  -- the `usesParams` gate is unchanged by the scheme normalisation
  have hgate : usesParams.contains (if S ≠ "" then lowerStr S else "https") =
      usesParams.contains S := by
    rcases hSspec with hem | ⟨_, _, _, hlow⟩
    · rw [hem]
      decide
    · by_cases hne : S = ""
      · rw [hne]
        decide
      · rw [if_pos hne, hlow]
  -- Facts about the pre-params path r4 and the query.
  have hr4noq : '?' ∉ r4 := by
    have := splitQuery_fst_no_q r3
    rwa [hqr] at this
  have hr3nof : '#' ∉ r3 := by
    have := splitFragment_fst_no_hash r2
    rwa [hfr] at this
  have hr4sub : ∀ x ∈ r4, x ∈ r3 := by
    have := splitQuery_fst_subset r3
    rwa [hqr] at this
  have hr4nof : '#' ∉ r4 := fun hm => hr3nof (hr4sub _ hm)
  have hQsub : ∀ x ∈ Qu.data, x ∈ r3 := by
    have := splitQuery_snd_subset r3
    rwa [hqr] at this
  -- Facts about the params-gate output.
  rcases hpp : (if usesParams.contains S ∧ r4.contains ';' then splitParams r4
    else (r4, "")) with ⟨Pp, Pr⟩
  dsimp only
  have hPp_sub : ∀ x ∈ Pp, x ∈ r4 := by
    by_cases hg : usesParams.contains S = true ∧ r4.contains ';' = true
    · rw [if_pos hg] at hpp
      have := splitParams_fst_subset r4
      rwa [hpp] at this
    · rw [if_neg hg] at hpp
      injection hpp with h1 h2
      rw [← h1]
      exact fun x hx => hx
  have hPr_spec : ∀ x ∈ Pr.data, x ∈ r4 ∧ x ≠ '/' := by
    by_cases hg : usesParams.contains S = true ∧ r4.contains ';' = true
    · rw [if_pos hg] at hpp
      have := splitParams_snd_spec r4
      rwa [hpp] at this
    · rw [if_neg hg] at hpp
      injection hpp with h1 h2
      rw [← h2]
      intro x hx
      simp at hx
  have hPp_last : usesParams.contains S = true → ';' ∉ lastSegment Pp := by
    intro hu
    by_cases hsemi : r4.contains ';' = true
    · rw [if_pos ⟨hu, hsemi⟩] at hpp
      have := splitParams_fst_lastseg r4
      rwa [hpp] at this
    · rw [if_neg (fun hg => hsemi hg.2)] at hpp
      injection hpp with h1 h2
      rw [← h1]
      intro hm
      exact hsemi ((contains_iff_mem _ _).mpr (lastSegment_subset _ _ hm))
  have hPr_empty : usesParams.contains S = false → Pr = "" := by
    intro hu
    rw [if_neg (fun hg => by rw [hu] at hg; exact absurd hg.1 (by simp))] at hpp
    injection hpp with h1 h2
    exact h2.symm
  have hr4nil : r4 = [] → Pp = [] ∧ Pr = "" := by
    intro h4
    subst h4
    rw [if_neg (fun hg => by simpa using hg.2)] at hpp
    injection hpp with h1 h2
    exact ⟨h1.symm, h2.symm⟩
  constructor
  -- frag
  case frag => rfl
  case scheme_ne =>
      dsimp only
      by_cases hne : S = ""
      · rw [hne]
        decide
      · rw [if_pos hne]
        rw [Ne, lowerStr_eq_empty_iff]
        exact hne
  case scheme_head =>
      dsimp only
      rcases hSspec with hem | ⟨hne, hhead, _, hlow⟩
      · rw [hem, if_neg (not_not_intro rfl)]
        intro h hh
        simp only [List.head?_cons] at hh
        injection hh with hh
        rw [← hh]
        decide
      · rw [if_pos (fun he => hne (congrArg String.data he)), hlow]
        exact hhead
  case scheme_chars =>
      dsimp only
      rcases hSspec with hem | ⟨hne, _, hchars, hlow⟩
      · rw [hem, if_neg (not_not_intro rfl)]
        decide
      · rw [if_pos (fun he => hne (congrArg String.data he)), hlow]
        exact hchars
  case scheme_lower =>
      dsimp only
      rcases hSspec with hem | ⟨hne, _, _, hlow⟩
      · rw [hem, if_neg (not_not_intro rfl)]
        decide
      · rw [if_pos (fun he => hne (congrArg String.data he)), hlow, hlow]
  case netloc_chars =>
      dsimp only
      intro ch hch
      rw [lowerStr_data] at hch
      simp only [List.mem_map] at hch
      obtain ⟨orig, horig, hlc⟩ := hch
      rw [← hlc]
      refine lowerChar_netlocDelim orig ?_
      have := splitNetloc_fst_chars r1
      rw [hnl] at this
      exact this orig horig
  case netloc_lower => exact lowerStr_idem N
  case path_noq =>
      intro hm
      dsimp only at hm
      rw [mem_collapseSlashes] at hm
      exact hr4noq (hPp_sub _ hm)
  case path_nof =>
      intro hm
      dsimp only at hm
      rw [mem_collapseSlashes] at hm
      exact hr4nof (hPp_sub _ hm)
  case path_collapsed => exact collapseSlashes_idem Pp
  case path_lastseg =>
      intro hu
      dsimp only
      rw [lastSegment_collapseSlashes]
      rw [hgate] at hu
      exact hPp_last hu
  case params_scheme =>
      dsimp only
      intro hu
      rw [hgate] at hu
      exact hPr_empty hu
  case params_chars =>
      dsimp only
      intro ch hch
      obtain ⟨hin, hsl⟩ := hPr_spec ch hch
      exact ⟨hsl, fun he => hr4noq (he ▸ hin), fun he => hr4nof (he ▸ hin)⟩
  case query_nof =>
      dsimp only
      intro hm
      exact hr3nof (hQsub _ hm)
  case netloc_path =>
      intro hNe
      rw [Ne, lowerStr_eq_empty_iff] at hNe
      have hhd := splitNetloc_snd_head r1 (by rw [hnl]; exact hNe)
      rw [hnl] at hhd
      dsimp only at hhd ⊢
      have hfin : r4 = [] →
          (String.mk (collapseSlashes Pp) = "" ∧ Pr = "") := by
        intro h4
        obtain ⟨hPp, hPr⟩ := hr4nil h4
        rw [hPp, collapseSlashes_nil]
        exact ⟨rfl, hPr⟩
      cases hr2 : r2 with
      | nil =>
          refine Or.inr (hfin ?_)
          rw [hr2] at hfr
          rw [splitFragment_nil] at hfr
          injection hfr with h3 _
          rw [← h3] at hqr
          rw [splitQuery_nil] at hqr
          injection hqr with h4 _
          exact h4.symm
      | cons d t =>
          have hdel := hhd d (by rw [hr2]; rfl)
          have hD3 : (d = '/' ∨ d = '?') ∨ d = '#' := by
            simpa [netlocDelim] using hdel
          rcases hD3 with (hD | hD) | hD
          · -- heads chain down to the path
            refine Or.inl ?_
            have h3 : r3.head? = some '/' := by
              have := splitFragment_fst_head r2 '/'
                (by rw [hr2, hD]; rfl) (by decide)
              rwa [hfr] at this
            have h4 : r4.head? = some '/' := by
              have := splitQuery_fst_head r3 '/' h3 (by decide)
              rwa [hqr] at this
            have hPph : Pp.head? = some '/' := by
              by_cases hg : usesParams.contains S = true ∧
                  r4.contains ';' = true
              · rw [if_pos hg] at hpp
                have := splitParams_fst_head_slash r4 h4
                rwa [hpp] at this
              · rw [if_neg hg] at hpp
                injection hpp with h1 _
                rw [← h1]
                exact h4
            rw [collapseSlashes_head?]
            exact hPph
          · refine Or.inr (hfin ?_)
            have h3 : r3.head? = some '?' := by
              have := splitFragment_fst_head r2 '?'
                (by rw [hr2, hD]; rfl) (by decide)
              rwa [hfr] at this
            have := splitQuery_fst_of_q r3 h3
            rwa [hqr] at this
          · refine Or.inr (hfin ?_)
            have h3 : r3 = [] := by
              have := splitFragment_fst_of_hash r2 (by rw [hr2, hD]; rfl)
              rwa [hfr] at this
            rw [h3, splitQuery_nil] at hqr
            injection hqr with h4 _
            exact h4.symm

lemma slashAdjust_inv (c : UrlComponents) (hc : UrlInv c) :
    UrlInv (slashAdjust c) := by
  unfold slashAdjust
  dsimp only
  by_cases hcond : c.netloc = "" ∧ usesNetloc.contains c.scheme = true ∧
      (if c.params ≠ "" then c.path.data ++ ';' :: c.params.data
        else c.path.data) ≠ [] ∧
      (if c.params ≠ "" then c.path.data ++ ';' :: c.params.data
        else c.path.data).head? ≠ some '/'
  case neg => rw [if_neg hcond]; exact hc
  case pos =>
    rw [if_pos hcond]
    obtain ⟨hN, huses, hne0, hhd⟩ := hcond
    obtain ⟨hfrag, hsne, hshead, hschars, hslow, hnchars, hnlow, hpnoq, hpnof,
      hpcol, hplast, hpsch, hprch, hqnof, hnp⟩ := hc
    have hPhead : ∀ x xs, c.path.data = x :: xs → x ≠ '/' := by
      intro x xs hx he
      apply hhd
      by_cases h : c.params = ""
      · rw [if_neg (not_not_intro h), hx, he]
        rfl
      · rw [if_pos h, hx, he]
        rfl
    constructor
    case frag => exact hfrag
    case scheme_ne => exact hsne
    case scheme_head => exact hshead
    case scheme_chars => exact hschars
    case scheme_lower => exact hslow
    case netloc_chars => exact hnchars
    case netloc_lower => exact hnlow
    case path_noq =>
        dsimp only
        intro hm
        rcases List.mem_cons.mp hm with h | h
        · exact absurd h.symm (by decide)
        · exact hpnoq h
    case path_nof =>
        dsimp only
        intro hm
        rcases List.mem_cons.mp hm with h | h
        · exact absurd h.symm (by decide)
        · exact hpnof h
    case path_collapsed =>
        dsimp only
        cases hP : c.path.data with
        | nil =>
            rw [collapseSlashes_cons '/' [] (by intro r _ h; cases h)]
            rw [collapseSlashes_nil]
        | cons x xs =>
            have hx := hPhead x xs hP
            rw [collapseSlashes_cons '/' (x :: xs)
              (by intro r _ h; injection h with h1 _; exact hx h1)]
            rw [← hP, hpcol]
    case path_lastseg =>
        dsimp only
        intro hu
        exact lastSegment_slash_cons _ (hplast hu)
    case params_scheme => exact hpsch
    case params_chars => exact hprch
    case query_nof => exact hqnof
    case netloc_path =>
        dsimp only
        intro hne
        exact absurd hN hne

lemma urlunparse_slashAdjust (c : UrlComponents) (hc : UrlInv c) :
    urlunparse (slashAdjust c) = urlunparse c := by
  unfold slashAdjust
  dsimp only
  by_cases hcond : c.netloc = "" ∧ usesNetloc.contains c.scheme = true ∧
      (if c.params ≠ "" then c.path.data ++ ';' :: c.params.data
        else c.path.data) ≠ [] ∧
      (if c.params ≠ "" then c.path.data ++ ';' :: c.params.data
        else c.path.data).head? ≠ some '/'
  case neg => rw [if_neg hcond]
  case pos =>
    rw [if_pos hcond]
    obtain ⟨hN, huses, hne0, hhd⟩ := hcond
    unfold urlunparse
    dsimp only
    have hshape : (if (String.mk ('/' :: c.path.data)) ≠ "" →
        False then c.path.data else c.path.data) = c.path.data := by
      split <;> rfl
    have hadj : (if c.params ≠ "" then
          ('/' :: c.path.data) ++ ';' :: c.params.data
        else ('/' :: c.path.data)) =
        '/' :: (if c.params ≠ "" then c.path.data ++ ';' :: c.params.data
          else c.path.data) := by
      by_cases h : c.params = "" <;> simp [h]
    rw [hadj]
    cases hu0 : (if c.params ≠ "" then c.path.data ++ ';' :: c.params.data
        else c.path.data) with
    | nil => exact absurd hu0 hne0
    | cons x xs =>
        have hx : x ≠ '/' := by
          intro he
          apply hhd
          rw [hu0, he]
          rfl
        rw [hN]
        rw [if_pos (Or.inr ⟨hc.scheme_ne, huses, by
          intro h
          simp only [List.take_succ_cons, List.take_zero] at h
          injection h with h1 h2
          injection h2 with h2 _
          exact hx h2⟩)]
        rw [if_pos (Or.inr ⟨hc.scheme_ne, huses, by
          intro h
          cases xs with
          | nil => simp at h
          | cons y ys =>
              simp only [List.take_succ_cons, List.take_zero] at h
              injection h with h1 _
              exact hx h1⟩)]
        rw [if_neg (show ¬(('/' :: x :: xs) ≠ [] ∧
            ('/' :: x :: xs).head? ≠ some '/') from
          fun hx2 => hx2.2 rfl)]
        rw [if_pos (show (x :: xs) ≠ [] ∧ (x :: xs).head? ≠ some '/' from
          ⟨by simp, by
            intro h
            simp only [List.head?_cons, Option.some.injEq] at h
            exact hx h⟩)]

lemma normComponents_urlunparse (c : UrlComponents) (hc : UrlInv c) :
    normComponents (urlunparse c) = slashAdjust c := by
  unfold normComponents
  dsimp only
  rw [urlparse_urlunparse c hc]
  have hc' := slashAdjust_inv c hc
  rcases ha : slashAdjust c with ⟨S, N, Ps, PRs, Qs, F⟩
  rw [ha] at hc'
  obtain ⟨hfrag, hsne, _, _, hslow, _, hnlow, _, _, hpcol, _, _, _, _, _⟩ := hc'
  dsimp only at hfrag hsne hslow hnlow hpcol ⊢
  rw [if_pos hsne, hslow, hnlow, hpcol, ← hfrag]

/-- C9: `normalize_url` is idempotent
(`normalize_url (normalize_url u) = normalize_url u` for every URL string),
and its result has the fragment stripped and the host (netloc) lowercased. -/
theorem normalize_url_idempotent (u : String) :
    normalize_url (normalize_url u) = normalize_url u ∧
      (urlparse (normalize_url u)).fragment = "" ∧
      lowerStr (urlparse (normalize_url u)).netloc =
        (urlparse (normalize_url u)).netloc := by
  have hinv := normComponents_inv u
  have hkey : urlparse (normalize_url u) = slashAdjust (normComponents u) :=
    urlparse_urlunparse _ hinv
  refine ⟨?_, ?_, ?_⟩
  · show urlunparse (normComponents (urlunparse (normComponents u))) =
      urlunparse (normComponents u)
    rw [normComponents_urlunparse _ hinv]
    exact urlunparse_slashAdjust _ hinv
  · rw [hkey]
    exact (slashAdjust_inv _ hinv).frag
  · rw [hkey]
    exact (slashAdjust_inv _ hinv).netloc_lower

/-! ### C2: `get_pending_urls` ordering -/

lemma strLeB_total (xs ys : List Char) :
    strLeB xs ys = true ∨ strLeB ys xs = true := by
  induction xs generalizing ys with
  | nil => left; rfl
  | cons x xs ih =>
    cases ys with
    | nil => right; rfl
    | cons y ys =>
      by_cases hxy : x = y
      · subst hxy
        simp only [strLeB, if_pos rfl]
        exact ih ys
      · have hne : x.toNat ≠ y.toNat :=
          fun h => hxy ((charEq_iff_toNat x y).mpr h)
        simp only [strLeB, if_neg hxy, if_neg (Ne.symm hxy),
          decide_eq_true_eq]
        omega

lemma strLeB_trans (xs ys zs : List Char) (h1 : strLeB xs ys = true)
    (h2 : strLeB ys zs = true) : strLeB xs zs = true := by
  induction xs generalizing ys zs with
  | nil => rfl
  | cons x xs ih =>
    cases ys with
    | nil => exact absurd h1 (by simp [strLeB])
    | cons y ys =>
      cases zs with
      | nil => exact absurd h2 (by simp [strLeB])
      | cons z zs =>
        simp only [strLeB] at h1 h2 ⊢
        by_cases hxy : x = y
        · subst hxy
          rw [if_pos rfl] at h1
          by_cases hyz : x = z
          · subst hyz
            rw [if_pos rfl] at h2 ⊢
            exact ih ys zs h1 h2
          · rw [if_neg hyz] at h2 ⊢
            exact h2
        · rw [if_neg hxy] at h1
          rw [decide_eq_true_eq] at h1
          by_cases hyz : y = z
          · subst hyz
            rw [if_neg hxy, decide_eq_true_eq]
            exact h1
          · rw [if_neg hyz, decide_eq_true_eq] at h2
            have hxz : x.toNat ≠ z.toNat := by omega
            rw [if_neg (fun h => hxz ((charEq_iff_toNat x z).mp h)),
              decide_eq_true_eq]
            omega

instance : IsTotal UrlRow pendingLe := by
  constructor
  intro a b
  unfold pendingLe pendingLeB
  by_cases h : docFlag a = docFlag b
  · rw [if_pos h, if_pos h.symm]
    exact strLeB_total _ _
  · rw [if_neg h, if_neg (Ne.symm h)]
    simp only [decide_eq_true_eq]
    omega

instance : IsTrans UrlRow pendingLe := by
  constructor
  intro a b c h1 h2
  unfold pendingLe pendingLeB at h1 h2 ⊢
  by_cases hab : docFlag a = docFlag b
  · rw [if_pos hab] at h1
    by_cases hbc : docFlag b = docFlag c
    · rw [if_pos hbc] at h2
      rw [if_pos (hab.trans hbc)]
      exact strLeB_trans _ _ _ h1 h2
    · rw [if_neg hbc, decide_eq_true_eq] at h2
      have : docFlag a ≠ docFlag c := by omega
      rw [if_neg this, decide_eq_true_eq]
      omega
  · rw [if_neg hab, decide_eq_true_eq] at h1
    by_cases hbc : docFlag b = docFlag c
    · have : docFlag a ≠ docFlag c := by omega
      rw [if_neg this, decide_eq_true_eq]
      omega
    · rw [if_neg hbc, decide_eq_true_eq] at h2
      have : docFlag a ≠ docFlag c := by omega
      rw [if_neg this, decide_eq_true_eq]
      omega

lemma docFlag_eq_iff (a b : UrlRow) :
    docFlag a = docFlag b ↔ urlLikeDocSuffix a.url = urlLikeDocSuffix b.url := by
  unfold docFlag
  cases ha : urlLikeDocSuffix a.url <;> cases hb : urlLikeDocSuffix b.url <;>
    simp

lemma docFlag_lt (a b : UrlRow) (h : docFlag a < docFlag b) :
    urlLikeDocSuffix a.url = false ∧ urlLikeDocSuffix b.url = true := by
  unfold docFlag at h
  by_cases hA : urlLikeDocSuffix a.url = true
  · rw [if_pos hA] at h
    by_cases hB : urlLikeDocSuffix b.url = true
    · rw [if_pos hB] at h; omega
    · rw [if_neg hB] at h; omega
  · rw [if_neg hA] at h
    by_cases hB : urlLikeDocSuffix b.url = true
    · exact ⟨Bool.eq_false_iff.mpr hA, hB⟩
    · rw [if_neg hB] at h; omega

/-- `pendingLe a b` yields exactly the two ordering conjuncts of the claim,
with the code's full-URL classification. -/
lemma pendingLe_imp (a b : UrlRow) (h : pendingLe a b) :
    (urlLikeDocSuffix a.url = true → urlLikeDocSuffix b.url = true) ∧
      (urlLikeDocSuffix a.url = urlLikeDocSuffix b.url →
        strLeB a.discovered_at.data b.discovered_at.data = true) := by
  unfold pendingLe pendingLeB at h
  by_cases hf : docFlag a = docFlag b
  · rw [if_pos hf] at h
    have heq := (docFlag_eq_iff a b).mp hf
    exact ⟨fun ha => heq ▸ ha, fun _ => h⟩
  · rw [if_neg hf, decide_eq_true_eq] at h
    obtain ⟨hA, hB⟩ := docFlag_lt a b h
    constructor
    · intro hta
      rw [hA] at hta
      exact Bool.noConfusion hta
    · intro heq
      rw [hA, hB] at heq
      exact Bool.noConfusion heq

/-- Claim C2 as stated is REFUTED: the `ORDER BY` classifies by the suffix
of the FULL URL, not of its path.  `https://h/a.pdf?x=1` has a `.pdf` path
(document-type in the claim's sense) but its full URL ends in `1`, so the
code sorts it as page-type: with a later-discovered genuine page URL it
comes out FIRST, violating "every page-type URL is ordered before every
document-type URL". -/
theorem pendingClaimC2_is_false : ¬ pendingClaimC2 := by
  intro h
  have h2 := (h [⟨"https://h/a.pdf?x=1", "queued", "2024-01-01", none, none,
    none⟩, ⟨"https://h/b", "queued", "2024-01-02", none, none, none⟩] 10).2.2
  have hout : getPendingUrls [⟨"https://h/a.pdf?x=1", "queued", "2024-01-01",
      none, none, none⟩,
      ⟨"https://h/b", "queued", "2024-01-02", none, none, none⟩] 10 =
      [⟨"https://h/a.pdf?x=1", "queued", "2024-01-01", none, none, none⟩,
        ⟨"https://h/b", "queued", "2024-01-02", none, none, none⟩] := by
    decide
  rw [hout] at h2
  have hpair := (List.pairwise_cons.mp h2).1 _ (List.mem_singleton.mpr rfl)
  exact absurd (hpair.1 (by decide)) (by decide)

/-- Claim C2 corrected: `get_pending_urls` returns at most `limit` rows, all
in status `queued` or `retry`, with every URL the code classifies page-type
(full lowered URL not ending in `.pdf`/`.doc`/`.docx`/`.txt`/`.html`/`.htm`)
ordered before every code-classified document-type URL, and each
classification group ordered by `discovered_at` ascending. -/
theorem get_pending_urls_spec (frontier : List UrlRow) (limit : ℕ) :
    (getPendingUrls frontier limit).length ≤ limit ∧
    (∀ r ∈ getPendingUrls frontier limit,
        r.status = "queued" ∨ r.status = "retry") ∧
    (getPendingUrls frontier limit).Pairwise (fun a b =>
      (urlLikeDocSuffix a.url = true → urlLikeDocSuffix b.url = true) ∧
      (urlLikeDocSuffix a.url = urlLikeDocSuffix b.url →
        strLeB a.discovered_at.data b.discovered_at.data = true)) := by
  refine ⟨?_, ?_, ?_⟩
  · unfold getPendingUrls
    rw [List.length_take]
    exact min_le_left _ _
  · intro r hr
    have hmem : r ∈ List.insertionSort pendingLe (frontier.filter urlRowPending) :=
      List.mem_of_mem_take hr
    rw [List.mem_insertionSort] at hmem
    have hp := (List.mem_filter.mp hmem).2
    unfold urlRowPending at hp
    rw [Bool.or_eq_true] at hp
    rcases hp with h | h
    · left; exact beq_iff_eq.mp h
    · right; exact beq_iff_eq.mp h
  · have hsorted : (List.insertionSort pendingLe
        (frontier.filter urlRowPending)).Sorted pendingLe :=
      List.sorted_insertionSort pendingLe _
    have htake : (getPendingUrls frontier limit).Pairwise pendingLe :=
      hsorted.sublist (List.take_sublist _ _)
    exact htake.imp (fun h => pendingLe_imp _ _ h)

/-! ### C7: HTTP 304 raises the not-modified signal -/

/-- Claim C7 CONFIRMED: whenever the HTTP response to the fetch has status
304, `_download_once` raises `NotModifiedError` (the distinct not-modified
signal, not an ordinary error): it returns no `DownloadResult`, and the
only effect performed is the host-throttle notification — in particular no
part-file write, no rename to a final file, and no touch of the URL's
cached fields (`_download_once` contains no database write at all). -/
theorem download_once_304 (settings : DlSettings) (fs : DlFs)
    (shaFn : List ℕ → String) (fetched_at : String) (url : String)
    (title : Option String) (resps : Bool → HttpResponse)
    (h : (resps fs.cookie_present).status = 304) :
    downloadOnce settings fs shaFn fetched_at url title resps =
      (.error (.notModified url), [.notedHost url 304]) := by
  unfold downloadOnce
  dsimp only
  rw [h, if_pos rfl]

theorem download_once_304_witness :
    (((fun _ => ⟨304, "https://www.justice.gov/f.pdf", "", none, none, none,
        []⟩ : Bool → HttpResponse) false).status = 304) ∧
    downloadOnce ⟨false, "flat"⟩ ⟨0, [], false, false, false, false⟩
        (fun _ => "") "t" "https://www.justice.gov/f.pdf" none
        (fun _ => ⟨304, "https://www.justice.gov/f.pdf", "", none, none, none,
          []⟩) =
      (.error (.notModified "https://www.justice.gov/f.pdf"),
        [.notedHost "https://www.justice.gov/f.pdf" 304]) :=
  ⟨rfl, download_once_304 ⟨false, "flat"⟩ ⟨0, [], false, false, false, false⟩
    (fun _ => "") "t" "https://www.justice.gov/f.pdf" none
    (fun _ => ⟨304, "https://www.justice.gov/f.pdf", "", none, none, none, []⟩)
    rfl⟩

/-! ### C8 / C10: `apply_feedback` -/

lemma feedbackMoveStep_blacklist (env : FbEnv) (doc_id : ℕ)
    (lb output_dir storage_layout : String) (st1 : FbState) :
    (feedbackMoveStep env doc_id lb output_dir storage_layout
      st1).phrase_blacklist = st1.phrase_blacklist := by
  unfold feedbackMoveStep
  dsimp only
  split
  · split <;> rfl
  · rfl

lemma feedbackMoveStep_match_rows (env : FbEnv) (doc_id : ℕ)
    (lb output_dir storage_layout : String) (st1 : FbState) :
    (feedbackMoveStep env doc_id lb output_dir storage_layout
      st1).match_rows = st1.match_rows := by
  unfold feedbackMoveStep
  dsimp only
  split
  · split <;> rfl
  · rfl

lemma feedbackPenaltyStep_blacklist (doc_id : ℕ) (lb : String)
    (st2 : FbState) :
    (feedbackPenaltyStep doc_id lb st2).phrase_blacklist =
      st2.phrase_blacklist := by
  unfold feedbackPenaltyStep
  dsimp only
  split <;> rfl

lemma feedbackPenaltyStep_match_rows (doc_id : ℕ) (lb : String)
    (st2 : FbState) :
    (feedbackPenaltyStep doc_id lb st2).match_rows = st2.match_rows := by
  unfold feedbackPenaltyStep
  dsimp only
  split <;> rfl

lemma feedbackCentroidStep_blacklist (env : FbEnv) (doc_id : ℕ)
    (lb model_name : String) (provider_some : Bool) (st4 : FbState) :
    (feedbackCentroidStep env doc_id lb model_name provider_some
      st4).phrase_blacklist = st4.phrase_blacklist := by
  unfold feedbackCentroidStep
  dsimp only
  split
  · rfl
  · split <;> rfl

/-- Claim C10 CONFIRMED: a label whose trimmed, lowercased form is neither
`irrelevant` nor `high_value` makes `apply_feedback` return before
touching anything: review rows, URL penalties, phrase blacklist, document
paths, file locations and feedback centroids are all exactly as before. -/
theorem apply_feedback_invalid_label (env : FbEnv) (doc_id : ℕ)
    (label : String) (provider_some : Bool)
    (model_name output_dir storage_layout : String) (st : FbState)
    (h : ¬ (lowerStr (pyStrip label) = "irrelevant" ∨
        lowerStr (pyStrip label) = "high_value")) :
    apply_feedback env doc_id label provider_some model_name output_dir
      storage_layout st = st := by
  unfold apply_feedback
  dsimp only
  rw [if_pos h]

theorem apply_feedback_invalid_label_witness :
    (¬ (lowerStr (pyStrip " Spam ") = "irrelevant" ∨
        lowerStr (pyStrip " Spam ") = "high_value")) ∧
    apply_feedback ⟨fun _ => true, true, fun _ => [], id, fun _ => 0, "t1"⟩
        7 " Spam " true "model" "out" "flat"
        ⟨[(7, ("high_value", "t0"))], [("h", 1/10)], ["kw"],
          [(7, ⟨"https://h/a.pdf", "T", "abc", "p.pdf"⟩)], [(7, [some "kw"])],
          [(7, "text")], [], []⟩ =
      ⟨[(7, ("high_value", "t0"))], [("h", 1/10)], ["kw"],
        [(7, ⟨"https://h/a.pdf", "T", "abc", "p.pdf"⟩)], [(7, [some "kw"])],
        [(7, "text")], [], []⟩ :=
  ⟨by decide, apply_feedback_invalid_label _ 7 " Spam " true "model" "out"
    "flat" _ (by decide)⟩

/-- Claim C8 as stated is REFUTED: the code strips the single match's
pattern (`pat = str(...).strip(); if pat:`) and skips blank results, so a
document whose only recorded match has the whitespace pattern `" "` gets
NOTHING added to the blacklist — in particular not "the match's
pattern". -/
theorem blacklistClaimC8_is_false : ¬ blacklistClaimC8 := by
  intro h
  have h2 := h ⟨fun _ => false, false, fun _ => [], id, fun _ => 0, "t"⟩ 1
    false "m" "out" "flat" ⟨[], [], [], [], [(1, [some " "])], [], [], []⟩
    (some " ") rfl
  exact absurd h2 (by decide)

/-- Claim C8 corrected: labeling a document `irrelevant` when it has two
or more recorded matches leaves the blacklist unchanged; with exactly one
match the TRIMMED pattern is added when it is nonempty (and the result
keeps at most `max old 500` entries — exactly 500 most recent when an
addition overflows), while a pattern that strips to the empty string adds
nothing. -/
theorem apply_feedback_blacklist (env : FbEnv) (doc_id : ℕ)
    (provider_some : Bool) (model_name output_dir storage_layout : String)
    (st : FbState) (ms : List (Option String))
    (hms : st.match_rows.lookup doc_id = some ms) :
    (2 ≤ ms.length →
      (apply_feedback env doc_id "irrelevant" provider_some model_name
        output_dir storage_layout st).phrase_blacklist =
        st.phrase_blacklist) ∧
    (∀ pat : Option String, ms = [pat] → pyStrip (pyOrS pat "") = "" →
      (apply_feedback env doc_id "irrelevant" provider_some model_name
        output_dir storage_layout st).phrase_blacklist =
        st.phrase_blacklist) ∧
    (∀ pat : Option String, ms = [pat] → pyStrip (pyOrS pat "") ≠ "" →
      pyStrip (pyOrS pat "") ∈ (apply_feedback env doc_id "irrelevant"
        provider_some model_name output_dir storage_layout
        st).phrase_blacklist ∧
      (apply_feedback env doc_id "irrelevant" provider_some model_name
        output_dir storage_layout st).phrase_blacklist.length ≤
        max st.phrase_blacklist.length 500) := by
  have hlb : lowerStr (pyStrip "irrelevant") = "irrelevant" := by decide
  have hout : apply_feedback env doc_id "irrelevant" provider_some model_name
      output_dir storage_layout st =
      feedbackCentroidStep env doc_id "irrelevant" model_name provider_some
        (feedbackBlacklistStep doc_id "irrelevant"
          (feedbackPenaltyStep doc_id "irrelevant"
            (feedbackMoveStep env doc_id "irrelevant" output_dir
              storage_layout
              { st with reviews :=
                  set_review_status st.reviews doc_id "irrelevant" env.now }))) := by
    unfold apply_feedback
    dsimp only
    rw [hlb, if_neg (by simp)]
  generalize hS : feedbackPenaltyStep doc_id "irrelevant"
    (feedbackMoveStep env doc_id "irrelevant" output_dir storage_layout
      { st with reviews :=
          set_review_status st.reviews doc_id "irrelevant" env.now }) = S at hout
  have hSbl : S.phrase_blacklist = st.phrase_blacklist := by
    rw [← hS, feedbackPenaltyStep_blacklist, feedbackMoveStep_blacklist]
  have hSmr : S.match_rows = st.match_rows := by
    rw [← hS, feedbackPenaltyStep_match_rows, feedbackMoveStep_match_rows]
  have hbl : (apply_feedback env doc_id "irrelevant" provider_some model_name
      output_dir storage_layout st).phrase_blacklist =
      (feedbackBlacklistStep doc_id "irrelevant" S).phrase_blacklist := by
    rw [hout, feedbackCentroidStep_blacklist]
  refine ⟨?_, ?_, ?_⟩
  · intro h2
    rw [hbl]
    unfold feedbackBlacklistStep
    dsimp only
    rw [hSmr, hms]
    rw [if_neg]
    · exact hSbl
    · dsimp only [List.getD]
      rintro ⟨-, hlen⟩
      simp only [Option.getD_some] at hlen
      omega
  · intro pat hpat hempty
    subst hpat
    rw [hbl]
    unfold feedbackBlacklistStep
    dsimp only
    rw [hSmr, hms]
    rw [if_pos ⟨rfl, rfl⟩]
    simp only [Option.getD_some, List.headD]
    rw [hempty]
    rw [if_neg (by simp)]
    exact hSbl
  · intro pat hpat hne
    subst hpat
    rw [hbl]
    unfold feedbackBlacklistStep
    dsimp only
    rw [hSmr, hms]
    rw [if_pos ⟨rfl, rfl⟩]
    simp only [Option.getD_some, List.headD]
    rw [hSbl]
    by_cases hmem : pyStrip (pyOrS pat "") ∈
        st.phrase_blacklist.filter (fun x => pyStrip x ≠ "")
    · rw [if_pos hne, if_neg (by simpa using hmem)]
      rw [hSbl]
      constructor
      · exact (List.mem_filter.mp hmem).1
      · exact le_max_left _ _
    · rw [if_pos hne, if_pos hmem]
      dsimp only
      constructor
      · have hd : (st.phrase_blacklist.filter (fun x => pyStrip x ≠ "") ++
            [pyStrip (pyOrS pat "")]).length - 500 ≤
            (st.phrase_blacklist.filter (fun x => pyStrip x ≠ "")).length := by
          rw [List.length_append, List.length_singleton]
          omega
        rw [List.drop_append_of_le_length hd]
        exact List.mem_append_right _ (List.mem_singleton.mpr rfl)
      · rw [List.length_drop]
        exact le_max_of_le_right (by omega)

theorem apply_feedback_blacklist_witness :
    ((⟨[], [], ["old"], [], [(1, [some " kw "])], [], [], []⟩ :
        FbState).match_rows.lookup 1 = some [some " kw "]) ∧
    ([some " kw "] = [some " kw "]) ∧
    (pyStrip (pyOrS (some " kw ") "") ≠ "") ∧
    pyStrip (pyOrS (some " kw ") "") ∈
      (apply_feedback ⟨fun _ => false, false, fun _ => [], id, fun _ => 0,
        "t"⟩ 1 "irrelevant" false "m" "out" "flat"
        ⟨[], [], ["old"], [], [(1, [some " kw "])], [], [], []⟩).phrase_blacklist :=
  ⟨rfl, rfl, by decide,
    ((apply_feedback_blacklist ⟨fun _ => false, false, fun _ => [], id,
        fun _ => 0, "t"⟩ 1 false "m" "out" "flat"
        ⟨[], [], ["old"], [], [(1, [some " kw "])], [], [], []⟩
        [some " kw "] rfl).2.2 (some " kw ") rfl (by decide)).1⟩

/-! ### C3: the boolean query engine's NEAR semantics -/

lemma upperChar_of_not_lower (c : Char)
    (h : ¬ (c.toNat ≥ 97 ∧ c.toNat ≤ 122)) : upperChar c = c := by
  simp only [upperChar, if_neg h]

lemma natReprCore_ne_nil (n : ℕ) : natReprCore n ≠ [] := by
  rw [natReprCore]
  split
  · simp
  · simp

lemma natReprCore_digits (n : ℕ) :
    ∀ c ∈ natReprCore n, 48 ≤ c.toNat ∧ c.toNat ≤ 57 := by
  induction n using Nat.strong_induction_on with
  | _ n ih =>
    rw [natReprCore]
    split
    case isTrue h =>
      intro c hc
      simp only [List.mem_singleton] at hc
      subst hc
      rw [charOfNat_toNat _ (Or.inl (by omega))]
      omega
    case isFalse h =>
      intro c hc
      rcases List.mem_append.mp hc with h1 | h1
      · exact ih (n / 10) (Nat.div_lt_self (by omega) (by omega)) c h1
      · simp only [List.mem_singleton] at h1
        subst h1
        rw [charOfNat_toNat _ (Or.inl (by omega))]
        have := Nat.mod_lt n (show 0 < 10 by omega)
        omega

lemma natOfDigits_append_one (l : List Char) (c : Char) :
    natOfDigits (l ++ [c]) = 10 * natOfDigits l + (c.toNat - 48) := by
  unfold natOfDigits
  rw [List.foldl_append]
  rfl

lemma natOfDigits_natReprCore (n : ℕ) : natOfDigits (natReprCore n) = n := by
  induction n using Nat.strong_induction_on with
  | _ n ih =>
    rw [natReprCore]
    split
    case isTrue h =>
      show natOfDigits [Char.ofNat (48 + n)] = n
      unfold natOfDigits
      simp only [List.foldl_cons, List.foldl_nil]
      rw [charOfNat_toNat _ (Or.inl (by omega))]
      omega
    case isFalse h =>
      rw [natOfDigits_append_one, ih (n / 10) (Nat.div_lt_self (by omega) (by omega))]
      rw [charOfNat_toNat _ (Or.inl (by omega))]
      have := Nat.mod_lt n (show 0 < 10 by omega)
      omega

/-- The `NEAR/n` token: its data. -/
lemma nearTok_data (n : ℕ) :
    ("NEAR/" ++ natRepr n).data = 'N' :: 'E' :: 'A' :: 'R' :: '/' :: natReprCore n := by
  rw [String.data_append]
  rfl

lemma map_upperChar_digits (n : ℕ) :
    (natReprCore n).map upperChar = natReprCore n := by
  have h : ∀ c ∈ natReprCore n, upperChar c = c := fun c hc =>
    upperChar_of_not_lower c (by
      have := natReprCore_digits n c hc
      omega)
  calc (natReprCore n).map upperChar = (natReprCore n).map id :=
        List.map_congr_left h
    _ = natReprCore n := List.map_id _

lemma pyUpper_nearTok (n : ℕ) :
    pyUpper ("NEAR/" ++ natRepr n) = "NEAR/" ++ natRepr n := by
  unfold pyUpper
  have hd : (("NEAR/" ++ natRepr n).data).map upperChar =
      ("NEAR/" ++ natRepr n).data := by
    rw [nearTok_data]
    simp only [List.map_cons]
    rw [upperChar_of_not_lower _ (by decide), upperChar_of_not_lower _ (by decide),
      upperChar_of_not_lower _ (by decide), upperChar_of_not_lower _ (by decide),
      upperChar_of_not_lower _ (by decide), map_upperChar_digits]
  rw [hd, stringMk_data]

lemma strStartsWith_nearTok (n : ℕ) :
    strStartsWith ("NEAR/" ++ natRepr n) "NEAR/" = true := by
  unfold strStartsWith
  rw [nearTok_data]
  show List.isPrefixOf ['N', 'E', 'A', 'R', '/'] _ = true
  rw [show ('N' :: 'E' :: 'A' :: 'R' :: '/' :: natReprCore n) =
    ['N', 'E', 'A', 'R', '/'] ++ natReprCore n from rfl]
  rw [List.isPrefixOf_iff_prefix]
  exact List.prefix_append _ _

lemma isOpTok_nearTok (n : ℕ) : isOpTok ("NEAR/" ++ natRepr n) = true := by
  unfold isOpTok
  rw [pyUpper_nearTok]
  simp [strStartsWith_nearTok]

lemma nearTok_ne_words (n : ℕ) :
    ("NEAR/" ++ natRepr n) ≠ "NOT" ∧ ("NEAR/" ++ natRepr n) ≠ "AND" ∧
    ("NEAR/" ++ natRepr n) ≠ "OR" ∧ ("NEAR/" ++ natRepr n) ≠ "(" ∧
    ("NEAR/" ++ natRepr n) ≠ ")" := by
  refine ⟨?_, ?_, ?_, ?_, ?_⟩ <;>
    · intro he
      have hd := congrArg String.data he
      rw [nearTok_data] at hd
      simp at hd

lemma isOpTok_false_elim (tok : String) (h : isOpTok tok = false) :
    pyUpper tok ≠ "AND" ∧ pyUpper tok ≠ "OR" ∧ pyUpper tok ≠ "NOT" ∧
      strStartsWith (pyUpper tok) "NEAR/" = false := by
  unfold isOpTok at h
  simp only [Bool.or_eq_false_iff, beq_eq_false_iff_ne] at h
  exact ⟨h.1.1.1, h.1.1.2, h.1.2, h.2⟩

lemma parseToRpn_near (a b : String) (n : ℕ)
    (ha : isOpTok a = false ∧ a ≠ "(" ∧ a ≠ ")")
    (hb : isOpTok b = false ∧ b ≠ "(" ∧ b ≠ ")") :
    parseToRpn [a, "NEAR/" ++ natRepr n, b] =
      [a, b, "NEAR/" ++ natRepr n] := by
  obtain ⟨-, -, -, hn4, hn5⟩ := nearTok_ne_words n
  unfold parseToRpn
  simp only [rpnAux, if_neg ha.2.1, if_neg ha.2.2, if_neg hb.2.1,
    if_neg hb.2.2, if_neg hn4, if_neg hn5, ha.1, hb.1, isOpTok_nearTok,
    if_neg Bool.false_ne_true, if_pos rfl, List.takeWhile_nil,
    List.dropWhile_nil, List.append_nil, List.nil_append]
  simp

lemma natReprCore_all_digitB (n : ℕ) :
    (natReprCore n).all isDigitB = true := by
  rw [List.all_eq_true]
  intro c hc
  have := natReprCore_digits n c hc
  unfold isDigitB
  simp only [Bool.and_eq_true, decide_eq_true_eq]
  omega

lemma evalRpnAux_near (a b : String) (n : ℕ) (text : String)
    (ha : isOpTok a = false) (hb : isOpTok b = false) :
    evalRpnAux text [a, b, "NEAR/" ++ natRepr n] [] =
      some (near_present a b n text,
        a ++ " NEAR/" ++ natRepr n ++ " " ++ b) := by
  obtain ⟨ha1, ha2, ha3, ha4⟩ := isOpTok_false_elim a ha
  obtain ⟨hb1, hb2, hb3, hb4⟩ := isOpTok_false_elim b hb
  obtain ⟨hn1, hn2, hn3, -, -⟩ := nearTok_ne_words n
  have hu := pyUpper_nearTok n
  have hns : ("NEAR/" ++ natRepr n).data.drop 5 = natReprCore n := by
    rw [nearTok_data]
    rfl
  simp only [evalRpnAux, if_neg ha3, if_neg ha1, if_neg ha2, ha4,
    if_neg hb3, if_neg hb1, if_neg hb2, hb4, if_neg Bool.false_ne_true,
    hu, if_neg hn1, if_neg hn2, if_neg hn3, strStartsWith_nearTok,
    if_pos rfl, hns]
  have hcond : natReprCore n ≠ [] ∧ (natReprCore n).all isDigitB = true :=
    ⟨natReprCore_ne_nil n, natReprCore_all_digitB n⟩
  rw [if_pos hcond]
  simp [natOfDigits_natReprCore]

lemma evaluateQueryTokens_near (a b : String) (n : ℕ) (text : String)
    (ha : isOpTok a = false ∧ a ≠ "(" ∧ a ≠ ")")
    (hb : isOpTok b = false ∧ b ≠ "(" ∧ b ≠ ")") :
    evaluateQueryTokens [a, "NEAR/" ++ natRepr n, b] text =
      near_present a b n text := by
  unfold evaluateQueryTokens
  rw [parseToRpn_near a b n ha hb, evalRpnAux_near a b n text ha.1 hb.1]

lemma findWordsAux_spec (l : List Char) :
    ∀ (acc : List Char), (∀ c ∈ acc, wordChar c = true) →
    ∀ w ∈ findWordsAux l acc, w ≠ [] ∧ ∀ c ∈ w, wordChar c = true := by
  induction l with
  | nil =>
    intro acc hacc w hw
    rw [findWordsAux] at hw
    split at hw
    · simp at hw
    case isFalse hne =>
      simp only [List.mem_singleton] at hw
      subst hw
      refine ⟨by simpa using hne, ?_⟩
      intro c hc
      exact hacc c (List.mem_reverse.mp hc)
  | cons c cs ih =>
    intro acc hacc w hw
    rw [findWordsAux] at hw
    split at hw
    case isTrue h =>
      refine ih (c :: acc) ?_ w hw
      intro x hx
      rcases List.mem_cons.mp hx with h2 | h2
      · subst h2; exact h
      · exact hacc x h2
    case isFalse h =>
      split at hw
      · exact ih [] (by simp) w hw
      case isFalse hne =>
        rcases List.mem_cons.mp hw with h1 | h1
        · subst h1
          refine ⟨by simpa using hne, ?_⟩
          intro x hx
          exact hacc x (List.mem_reverse.mp hx)
        · exact ih [] (by simp) w h1

lemma findWords_spec (l : List Char) :
    ∀ w ∈ findWords l, w ≠ [] ∧ ∀ c ∈ w, wordChar c = true :=
  findWordsAux_spec l [] (by simp)

lemma phrasePositions_mem (words p : List (List Char)) (hp : p ≠ [])
    (hw : ∀ w ∈ p, w ≠ []) (i : ℕ) :
    i ∈ phrasePositions words p ↔ (words.drop i).take p.length = p := by
  unfold phrasePositions
  rw [if_neg hp]
  by_cases hlen : p.length = 1
  · rw [if_pos hlen]
    obtain ⟨w0, rfl⟩ := List.length_eq_one.mp hlen
    simp only [List.mem_filter, List.mem_range, List.headD, beq_iff_eq]
    constructor
    · rintro ⟨hi, hget⟩
      rw [List.drop_eq_getElem_cons hi]
      simp only [List.length_singleton, List.take_succ_cons, List.take_zero]
      rw [← hget, List.getD_eq_getElem words [] hi]
    · intro htake
      have hi : i < words.length := by
        by_contra hge
        rw [List.drop_eq_nil_of_le (by omega)] at htake
        simp at htake
      refine ⟨hi, ?_⟩
      rw [List.drop_eq_getElem_cons hi] at htake
      simp only [List.length_singleton, List.take_succ_cons, List.take_zero,
        List.cons.injEq] at htake
      rw [List.getD_eq_getElem words [] hi, htake.1]
  · rw [if_neg hlen]
    simp only [List.mem_filter, List.mem_range, beq_iff_eq]
    constructor
    · rintro ⟨-, ht⟩
      exact ht
    · intro ht
      refine ⟨?_, ht⟩
      have hlt : ((words.drop i).take p.length).length = p.length :=
        congrArg List.length ht
      rw [List.length_take, List.length_drop] at hlt
      have hle : p.length ≤ words.length - i := min_eq_left_iff.mp hlt
      have hp0 : 0 < p.length := List.length_pos.mpr hp
      omega

lemma termTokensLower_elts (t : String) :
    ∀ w ∈ (termTokens t).map (List.map lowerChar), w ≠ [] := by
  intro w hw
  rcases List.mem_map.mp hw with ⟨w0, hw0, rfl⟩
  have := (findWords_spec _ w0 hw0).1
  simp [this]

lemma near_present_iff (left right : String) (n : ℕ) (text : String) :
    near_present left right n text = true ↔ specNear left right n text := by
  unfold near_present specNear
  dsimp only
  by_cases h1 : (termTokens left).map (List.map lowerChar) = [] ∨
      (termTokens right).map (List.map lowerChar) = []
  · rw [if_pos h1]
    simp only [Bool.false_eq_true, false_iff]
    rintro ⟨i, j, ⟨hne1, -⟩, ⟨hne2, -⟩, -⟩
    unfold specPhraseAt at *
    rcases h1 with h | h
    · exact hne1 h
    · exact hne2 h
  · rw [if_neg h1]
    push_neg at h1
    by_cases h2 : phrasePositions (findWords (text.data.map lowerChar))
        ((termTokens left).map (List.map lowerChar)) = [] ∨
        phrasePositions (findWords (text.data.map lowerChar))
        ((termTokens right).map (List.map lowerChar)) = []
    · rw [if_pos h2]
      simp only [Bool.false_eq_true, false_iff]
      rintro ⟨i, j, ⟨-, hti⟩, ⟨-, htj⟩, -⟩
      have hmi := (phrasePositions_mem _ _ h1.1 (termTokensLower_elts left) i).mpr hti
      have hmj := (phrasePositions_mem _ _ h1.2 (termTokensLower_elts right) j).mpr htj
      rcases h2 with h | h
      · rw [h] at hmi; exact absurd hmi (List.not_mem_nil i)
      · rw [h] at hmj; exact absurd hmj (List.not_mem_nil j)
    · rw [if_neg h2]
      simp only [List.any_eq_true, decide_eq_true_eq]
      constructor
      · rintro ⟨i, hi, j, hj, hd⟩
        exact ⟨i, j,
          ⟨h1.1, (phrasePositions_mem _ _ h1.1 (termTokensLower_elts left) i).mp hi⟩,
          ⟨h1.2, (phrasePositions_mem _ _ h1.2 (termTokensLower_elts right) j).mp hj⟩,
          hd⟩
      · rintro ⟨i, j, ⟨-, hti⟩, ⟨-, htj⟩, hd⟩
        exact ⟨i,
          (phrasePositions_mem _ _ h1.1 (termTokensLower_elts left) i).mpr hti,
          j,
          (phrasePositions_mem _ _ h1.2 (termTokensLower_elts right) j).mpr htj,
          hd⟩

/-- Claim C3 CONFIRMED: for every query of the form `A NEAR/n B` (two
non-operator tokens around a `NEAR/n` token) and every text, the engine
reports a match iff some occurrence of phrase `A` and some occurrence of
phrase `B` — matched as whole-word token sequences over the text's word
list — have token-start positions within `n` words of each other; and in
particular `"flight log" NEAR/5 "minor victim"` matches when the phrases
are 4 words apart and does not match when 50 filler words separate
them. -/
theorem near_query_semantics (a b : String) (n : ℕ) (text : String)
    (ha : isOpTok a = false ∧ a ≠ "(" ∧ a ≠ ")")
    (hb : isOpTok b = false ∧ b ≠ "(" ∧ b ≠ ")") :
    (evaluateQueryTokens [a, "NEAR/" ++ natRepr n, b] text = true ↔
      specNear a b n text) ∧
    evaluateQueryTokens ["\"flight log\"", "NEAR/5", "\"minor victim\""]
      "The flight log shows a minor victim name" = true ∧
    evaluateQueryTokens ["\"flight log\"", "NEAR/5", "\"minor victim\""]
      ("flight log w w w w w w w w w w w w w w w w w w w w w w w w w w " ++
        "w w w w w w w w w w w w w w w w w w w w w w w w minor victim") =
      false := by
  refine ⟨?_, by decide, by decide⟩
  rw [evaluateQueryTokens_near a b n text ha hb]
  exact near_present_iff a b n text

theorem near_query_semantics_witness :
    ((isOpTok "\"flight log\"" = false ∧ "\"flight log\"" ≠ "(" ∧
        "\"flight log\"" ≠ ")") ∧
      (isOpTok "\"minor victim\"" = false ∧ "\"minor victim\"" ≠ "(" ∧
        "\"minor victim\"" ≠ ")")) ∧
    (evaluateQueryTokens ["\"flight log\"", "NEAR/" ++ natRepr 5,
        "\"minor victim\""] "flight log minor victim" = true ↔
      specNear "\"flight log\"" "\"minor victim\"" 5
        "flight log minor victim") :=
  ⟨⟨by decide, by decide⟩,
    (near_query_semantics "\"flight log\"" "\"minor victim\"" 5
      "flight log minor victim" (by decide) (by decide)).1⟩

/-! ### C4: the literal keyword matcher -/

lemma wordChar_iff_toNat (c : Char) :
    wordChar c = true ↔
      (48 ≤ c.toNat ∧ c.toNat ≤ 57) ∨ (65 ≤ c.toNat ∧ c.toNat ≤ 90) ∨
      (97 ≤ c.toNat ∧ c.toNat ≤ 122) ∨ c.toNat = 95 := by
  have h95 : ('_').toNat = 95 := rfl
  simp only [wordChar, Char.isAlphanum, Bool.or_eq_true, isAlpha_iff_toNat,
    isDigit_iff_toNat, decide_eq_true_eq, charEq_iff_toNat, h95]
  tauto

lemma wsChar_iff_toNat (c : Char) :
    wsChar c = true ↔
      (c.toNat = 32 ∨ c.toNat = 9 ∨ c.toNat = 10 ∨ c.toNat = 13 ∨
        c.toNat = 11 ∨ c.toNat = 12) := by
  have h1 : (' ').toNat = 32 := rfl
  have h2 : ('\t').toNat = 9 := rfl
  have h3 : ('\n').toNat = 10 := rfl
  have h4 : ('\r').toNat = 13 := rfl
  have h5 : ('\x0b').toNat = 11 := rfl
  have h6 : ('\x0c').toNat = 12 := rfl
  simp only [wsChar, Bool.or_eq_true, decide_eq_true_eq, charEq_iff_toNat,
    h1, h2, h3, h4, h5, h6]
  tauto

lemma wordChar_lowerChar (c : Char) :
    wordChar (lowerChar c) = wordChar c := by
  have hl := lowerChar_toNat c
  by_cases hb : wordChar c = true
  · rw [hb]
    rw [wordChar_iff_toNat, hl]
    rw [wordChar_iff_toNat] at hb
    split <;> omega
  · rw [Bool.not_eq_true] at hb
    rw [hb, Bool.eq_false_iff]
    intro ht
    rw [wordChar_iff_toNat, hl] at ht
    have hb2 : ¬ ((48 ≤ c.toNat ∧ c.toNat ≤ 57) ∨ (65 ≤ c.toNat ∧ c.toNat ≤ 90) ∨
        (97 ≤ c.toNat ∧ c.toNat ≤ 122) ∨ c.toNat = 95) := by
      rw [← wordChar_iff_toNat]
      simp [hb]
    split at ht <;> omega

lemma wsChar_of_wordChar (c : Char) (h : wordChar c = true) :
    wsChar c = false := by
  rw [wordChar_iff_toNat] at h
  rw [Bool.eq_false_iff]
  intro hw
  rw [wsChar_iff_toNat] at hw
  omega

lemma takeWhile_append_all (p : Char → Bool) (a b : List Char)
    (ha : ∀ x ∈ a, p x = true) :
    (a ++ b).takeWhile p = a ++ b.takeWhile p := by
  induction a with
  | nil => rfl
  | cons x xs ih =>
    simp only [List.cons_append, List.takeWhile_cons,
      ha x (List.mem_cons_self x xs), if_pos trivial]
    rw [ih (fun y hy => ha y (List.mem_cons_of_mem x hy))]

lemma dropWhile_append_all (p : Char → Bool) (a b : List Char)
    (ha : ∀ x ∈ a, p x = true) :
    (a ++ b).dropWhile p = b.dropWhile p := by
  induction a with
  | nil => rfl
  | cons x xs ih =>
    simp only [List.cons_append, List.dropWhile_cons,
      ha x (List.mem_cons_self x xs), if_pos trivial]
    exact ih (fun y hy => ha y (List.mem_cons_of_mem x hy))

lemma takeWhile_head_neg (p : Char → Bool) (l : List Char) (c : Char)
    (hc : l.head? = some c) (hp : p c = false) : l.takeWhile p = [] := by
  cases l with
  | nil => simp at hc
  | cons x xs =>
    simp only [List.head?_cons, Option.some.injEq] at hc
    subst hc
    simp [List.takeWhile_cons, hp]

lemma dropWhile_head_neg (p : Char → Bool) (l : List Char) (c : Char)
    (hc : l.head? = some c) (hp : p c = false) : l.dropWhile p = l := by
  cases l with
  | nil => simp at hc
  | cons x xs =>
    simp only [List.head?_cons, Option.some.injEq] at hc
    subst hc
    simp [List.dropWhile_cons, hp]

lemma head_mem_of_head? {α : Type} (l : List α) (a : α)
    (h : l.head? = some a) : a ∈ l := by
  cases l with
  | nil => simp at h
  | cons x xs =>
    simp only [List.head?_cons, Option.some.injEq] at h
    subst h
    exact List.mem_cons_self _ _

lemma lower_map_head (t seg : List Char)
    (h : seg.map lowerChar = t.map lowerChar) (ht : t ≠ []) :
    ∃ c, seg.head? = some c ∧ wordChar c = wordChar (t.headD ' ') := by
  cases t with
  | nil => exact absurd rfl ht
  | cons t0 ts =>
    cases seg with
    | nil => simp at h
    | cons c cs =>
      simp only [List.map_cons, List.cons.injEq] at h
      refine ⟨c, rfl, ?_⟩
      simp only [List.headD_cons]
      rw [← wordChar_lowerChar c, h.1, wordChar_lowerChar t0]

lemma SpecSeq_head_word (toks : List (List Char)) (mid : List Char)
    (h : SpecSeq toks mid)
    (hw : ∀ t ∈ toks, t ≠ [] ∧ ∀ c ∈ t, wordChar c = true) :
    ∃ c, mid.head? = some c ∧ wordChar c = true := by
  induction h with
  | single t seg hseg =>
    obtain ⟨ht, htw⟩ := hw t (List.mem_cons_self t [])
    obtain ⟨c, hc, hcw⟩ := lower_map_head t seg hseg ht
    refine ⟨c, hc, ?_⟩
    rw [hcw]
    cases t with
    | nil => exact absurd rfl ht
    | cons t0 ts => exact htw t0 (List.mem_cons_self _ _)
  | cons t seg gap ts rest hseg hgne hgws htne hrec ih =>
    obtain ⟨ht, htw⟩ := hw t (List.mem_cons_self t ts)
    obtain ⟨c, hc, hcw⟩ := lower_map_head t seg hseg ht
    have hsegne : seg ≠ [] := by
      intro he
      rw [he] at hc
      simp at hc
    refine ⟨c, ?_, ?_⟩
    · rw [List.append_assoc, head?_append_left _ _ hsegne]
      exact hc
    · rw [hcw]
      cases t with
      | nil => exact absurd rfl ht
      | cons t0 ts2 => exact htw t0 (List.mem_cons_self _ _)

lemma ciPrefix_of_len (t seg : List Char) (rest : List Char)
    (h : seg.map lowerChar = t.map lowerChar) :
    ciPrefix t (seg ++ rest) = true := by
  have hlen : seg.length = t.length := by
    have := congrArg List.length h
    simpa using this
  unfold ciPrefix
  rw [beq_iff_eq, ← hlen, List.take_left]
  exact h

lemma consumePhrase_of_SpecSeq (toks : List (List Char)) (mid post : List Char)
    (h : SpecSeq toks mid)
    (hw : ∀ t ∈ toks, t ≠ [] ∧ ∀ c ∈ t, wordChar c = true) :
    consumePhrase toks (mid ++ post) = some post := by
  induction h generalizing post with
  | single t seg hseg =>
    have hlen : seg.length = t.length := by
      have := congrArg List.length hseg
      simpa using this
    simp only [consumePhrase, ciPrefix_of_len t seg post hseg, if_pos]
    rw [← hlen, List.drop_left]
  | cons t seg gap ts rest hseg hgne hgws htne hrec ih =>
    cases ts with
    | nil => exact absurd rfl htne
    | cons t2 ts' =>
      have hwtail : ∀ x ∈ t2 :: ts', x ≠ [] ∧ ∀ c ∈ x, wordChar c = true :=
        fun x hx => hw x (List.mem_cons_of_mem t hx)
      have hlen : seg.length = t.length := by
        have := congrArg List.length hseg
        simpa using this
      obtain ⟨c, hrh, hrw⟩ := SpecSeq_head_word _ _ hrec hwtail
      have harr : (seg ++ gap ++ rest) ++ post =
          seg ++ (gap ++ (rest ++ post)) := by
        simp [List.append_assoc]
      rw [harr]
      simp only [consumePhrase,
        ciPrefix_of_len t seg (gap ++ (rest ++ post)) hseg, if_pos]
      rw [← hlen, List.drop_left]
      have hrpne : (rest ++ post).head? = some c := by
        have hrne : rest ≠ [] := by
          intro he
          rw [he] at hrh
          simp at hrh
        rw [head?_append_left _ _ hrne]
        exact hrh
      have htw : (gap ++ (rest ++ post)).takeWhile wsChar = gap := by
        rw [takeWhile_append_all wsChar gap _ hgws,
          takeWhile_head_neg wsChar _ c hrpne (wsChar_of_wordChar c hrw),
          List.append_nil]
      have hdw : (gap ++ (rest ++ post)).dropWhile wsChar = rest ++ post := by
        rw [dropWhile_append_all wsChar gap _ hgws,
          dropWhile_head_neg wsChar _ c hrpne (wsChar_of_wordChar c hrw)]
      rw [htw, hdw]
      rw [if_neg (by simpa using hgne)]
      exact ih post hwtail

lemma consumePhrase_decomp (toks : List (List Char)) :
    ∀ (u rest : List Char), consumePhrase toks u = some rest →
    toks ≠ [] →
    ∃ mid, u = mid ++ rest ∧ SpecSeq toks mid := by
  induction toks with
  | nil => intro u rest h hne; exact absurd rfl hne
  | cons t tail ih =>
    intro u rest h _
    cases tail with
    | nil =>
      simp only [consumePhrase] at h
      split at h
      case isTrue hci =>
        simp only [Option.some.injEq] at h
        subst h
        refine ⟨u.take t.length, (List.take_append_drop t.length u).symm, ?_⟩
        exact SpecSeq.single t _ (beq_iff_eq.mp hci)
      case isFalse hci => exact absurd h (by simp)
    | cons t2 ts' =>
      simp only [consumePhrase] at h
      split at h
      case isFalse hci => exact absurd h (by simp)
      case isTrue hci =>
        split at h
        case isTrue hgap => exact absurd h (by simp)
        case isFalse hgap =>
          obtain ⟨mid2, hdec2, hseq2⟩ := ih _ _ h (by simp)
          refine ⟨u.take t.length ++ (u.drop t.length).takeWhile wsChar ++ mid2,
            ?_, ?_⟩
          · conv_lhs => rw [← List.take_append_drop t.length u]
            conv_lhs => rw [← List.takeWhile_append_dropWhile wsChar
              (u.drop t.length)]
            rw [hdec2]
            simp [List.append_assoc]
          · exact SpecSeq.cons t _ _ _ _ (beq_iff_eq.mp hci) hgap
              (fun c hc => List.mem_takeWhile_imp hc) (by simp) hseq2

lemma phraseFound_iff (toks : List (List Char)) (s : List Char)
    (hw : ∀ t ∈ toks, t ≠ [] ∧ ∀ c ∈ t, wordChar c = true)
    (hne : toks ≠ []) :
    phraseFound toks s = true ↔ specOccurs toks s := by
  unfold phraseFound specOccurs
  rw [List.any_eq_true]
  constructor
  · rintro ⟨i, hir, hcond⟩
    rw [List.mem_range] at hir
    rw [Bool.and_eq_true] at hcond
    obtain ⟨hbound, hmatch⟩ := hcond
    unfold matchAtBool at hmatch
    cases heq : consumePhrase toks (s.drop i) with
    | none => rw [heq] at hmatch; simp at hmatch
    | some rest =>
      rw [heq] at hmatch
      dsimp only at hmatch
      obtain ⟨mid, hdec, hseq⟩ := consumePhrase_decomp toks _ _ heq hne
      refine ⟨hne, s.take i, mid, rest, ?_, hseq, ?_, ?_⟩
      · conv_lhs => rw [← List.take_append_drop i s]
        rw [hdec, List.append_assoc]
      · by_cases hi0 : i = 0
        · left; rw [hi0, List.take_zero]
        · right
          unfold boundaryAt at hbound
          rw [Bool.or_eq_true] at hbound
          rcases hbound with hb | hb
          · exact absurd (by simpa using hb) hi0
          · have hi1 : i - 1 < s.length := by omega
            have hgd := List.getD_eq_getElem?_getD s (i - 1) ' '
            rw [List.getElem?_eq_getElem hi1] at hgd
            simp only [Option.getD_some] at hgd
            rw [hgd] at hb
            refine ⟨s[i - 1], ?_, by simpa using hb⟩
            rw [List.getLast?_eq_getElem?]
            have hlt : (s.take i).length = i := by
              rw [List.length_take]
              omega
            rw [hlt, List.getElem?_take, if_pos (by omega)]
            rw [List.getElem?_eq_getElem hi1]
      · cases rest with
        | nil => left; rfl
        | cons x xs =>
          right
          refine ⟨x, rfl, ?_⟩
          simp only [List.head?_cons] at hmatch
          simpa using hmatch
  · rintro ⟨-, pre, mid, post, hdec, hseq, hpre, hpost⟩
    refine ⟨pre.length, ?_, ?_⟩
    · rw [List.mem_range, hdec]
      simp only [List.length_append]
      omega
    · rw [Bool.and_eq_true]
      constructor
      · unfold boundaryAt
        rcases hpre with hpre | ⟨c, hlast, hcw⟩
        · subst hpre
          simp
        · have hprene : pre ≠ [] := by
            intro he
            rw [he] at hlast
            simp at hlast
          have hpl : 0 < pre.length := List.length_pos.mpr hprene
          rw [Bool.or_eq_true]
          right
          rw [List.getLast?_eq_getElem?] at hlast
          have hgd := List.getD_eq_getElem?_getD s (pre.length - 1) ' '
          rw [hdec] at hgd
          rw [List.getElem?_append_left
            (show pre.length - 1 < (pre ++ mid).length from by
              rw [List.length_append]; omega)] at hgd
          rw [List.getElem?_append_left
            (show pre.length - 1 < pre.length from by omega)] at hgd
          rw [hlast] at hgd
          simp only [Option.getD_some] at hgd
          rw [hdec, hgd, hcw]
          rfl
      · unfold matchAtBool
        have hdrop : s.drop pre.length = mid ++ post := by
          rw [hdec, List.append_assoc, List.drop_left]
        rw [hdrop, consumePhrase_of_SpecSeq toks mid post hseq hw]
        dsimp only
        rcases hpost with hpost | ⟨c, hh, hcw⟩
        · subst hpost
          rfl
        · rw [hh]
          dsimp only
          rw [hcw]
          rfl

lemma all_ws_of_pyStrip_empty (s : String) (h : pyStrip s = "") :
    ∀ c ∈ s.data, wsChar c = true := by
  unfold pyStrip at h
  have hd : (((s.data.dropWhile wsChar).reverse.dropWhile wsChar).reverse) =
      [] := congrArg String.data h
  rw [List.reverse_eq_nil_iff, List.dropWhile_eq_nil_iff] at hd
  have hall : ∀ x ∈ s.data.dropWhile wsChar, wsChar x = true := by
    intro x hx
    exact hd x (List.mem_reverse.mpr hx)
  intro c hc
  rw [← List.takeWhile_append_dropWhile wsChar s.data] at hc
  rcases List.mem_append.mp hc with h1 | h1
  · exact List.mem_takeWhile_imp h1
  · exact hall c h1

lemma specOccurs_false_of_ws (toks : List (List Char)) (s : List Char)
    (hw : ∀ t ∈ toks, t ≠ [] ∧ ∀ c ∈ t, wordChar c = true)
    (hs : ∀ c ∈ s, wsChar c = true) : ¬ specOccurs toks s := by
  rintro ⟨hne, pre, mid, post, hdec, hseq, -, -⟩
  obtain ⟨c, hh, hcw⟩ := SpecSeq_head_word toks mid hseq hw
  have hcs : c ∈ s := by
    rw [hdec]
    rw [List.append_assoc]
    exact List.mem_append_right pre
      (List.mem_append_left post (head_mem_of_head? mid c hh))
  have := hs c hcs
  rw [wsChar_of_wordChar c hcw] at this
  exact Bool.noConfusion this

/-- Claim C4 CONFIRMED: for every literal keyword (no `*`/`?` wildcard,
no `re:` prefix) and every text, the matcher (with its default empty
stopword set) reports a `keyword` hit iff the keyword's word tokens occur
in the text in order as whole words — the matched region sits at word
boundaries — separated by flexible whitespace and compared
case-insensitively; in particular `art` does not match inside `partial`
but matches in `This is art.`. -/
theorem keyword_literal_semantics (kw text : String)
    (h1 : strStartsWith (pyStrip kw) "re:" = false)
    (h2 : strContains (pyStrip kw) "*" = false)
    (h3 : strContains (pyStrip kw) "?" = false) :
    (keywordHit [] kw text = true ↔
      specOccurs (findWords (pyStrip kw).data) text.data) ∧
    keywordHit [] "art" "partial" = false ∧
    keywordHit [] "art" "This is art." = true := by
  refine ⟨?_, by decide, by decide⟩
  unfold keywordHit
  dsimp only
  by_cases hk0 : pyStrip kw = ""
  · rw [if_pos hk0]
    simp only [Bool.false_eq_true, false_iff]
    rintro ⟨hne, -⟩
    rw [hk0] at hne
    exact hne rfl
  · rw [if_neg hk0, h1, h2, h3]
    simp only [Bool.or_self, if_neg Bool.false_ne_true]
    by_cases htoks : findWords (pyStrip kw).data = []
    · rw [if_pos htoks]
      simp only [Bool.false_eq_true, false_iff]
      rintro ⟨hne, -⟩
      exact hne htoks
    · rw [if_neg htoks]
      by_cases htext : pyStrip text = ""
      · rw [if_pos htext]
        simp only [Bool.false_eq_true, false_iff]
        exact specOccurs_false_of_ws _ _ (findWords_spec _)
          (all_ws_of_pyStrip_empty text htext)
      · rw [if_neg htext]
        rw [if_neg (List.not_mem_nil _)]
        exact phraseFound_iff _ _ (findWords_spec _) htoks

theorem keyword_literal_semantics_witness :
    (strStartsWith (pyStrip "art") "re:" = false ∧
      strContains (pyStrip "art") "*" = false ∧
      strContains (pyStrip "art") "?" = false) ∧
    keywordHit [] "art" "partial" = false ∧
    keywordHit [] "art" "This is art." = true :=
  ⟨⟨by decide, by decide, by decide⟩,
    (keyword_literal_semantics "art" "x" (by decide) (by decide)
      (by decide)).2⟩
